import Mathlib

/-!
# Verification of the progpy state-estimation and prediction engine

Shallow embedding of the core of `progpy` (NASA prognostics package):
the `UncertainData` family, the time-stepping loops of the state
estimators (`KalmanFilter`, `UnscentedKalmanFilter`, `ParticleFilter`),
the `MonteCarlo` predictor's per-realization event loop, its parameter
validation and its constant-noise save/restore discipline, and the
time-of-event profile metrics (`alpha_lambda`,
`cumulative_relative_accuracy`, `monotonicity`).

Python floats are modelled as exact rationals (`ℚ`); Python `dict`s as
association lists `List (String × _)` (insertion-ordered, as Python
guarantees); raised exceptions as `Except String _` or `Option _`.
Randomness (numpy's generator) is modelled as an oracle `ℕ → ℕ`
supplying the drawn indices.
-/

set_option linter.unusedVariables false

namespace Progpy

/-- Lookup in an association list (Python `d[k]`, `none` when the key is
absent, i.e. a `KeyError`). -/
def alookup (k : String) : List (String × α) → Option α
  | [] => none
  | (k', v) :: rest => if k' = k then some v else alookup k rest

/-- Lookup with a default value (Python `d.get(k, dflt)`). -/
def alookupD (k : String) (l : List (String × α)) (dflt : α) : α :=
  (alookup k l).getD dflt

/-- Membership test (Python `k in d`). -/
def amem (k : String) (l : List (String × α)) : Bool :=
  (alookup k l).isSome

/-- Update-or-append (Python `d[k] = v` on a dict: overwrites an
existing entry in place, otherwise appends at the end). -/
def aset (k : String) (v : α) : List (String × α) → List (String × α)
  | [] => [(k, v)]
  | (k', v') :: rest =>
      if k' = k then (k', v) :: rest else (k', v') :: aset k v rest

/-! ## The `UncertainData` family

From `src/progpy/uncertain_data/`.  We embed the two variants the
claims are about: `ScalarData` (a labelled point value) and
`UnweightedSamples` (a list of labelled realizations). -/

/-- An `UncertainData` distribution: `scalar` embeds `ScalarData`
(`scalar_data.py`), `samples` embeds `UnweightedSamples`
(`unweighted_samples.py`).  A sample is an association list of key to
value. -/
inductive UncertainData where
  | scalar (state : List (String × ℚ))
  | samples (data : List (List (String × ℚ)))
  deriving DecidableEq, Repr

namespace UncertainData

/-- Python `keys()`: for `ScalarData` the keys of the state; for
`UnweightedSamples` the keys of the first sample (empty when there are
no samples), from `unweighted_samples.py` `keys`. -/
def keys : UncertainData → List String
  | .scalar state => state.map Prod.fst
  | .samples [] => []
  | .samples (s :: _) => s.map Prod.fst

/-- Python `mean`: for `ScalarData` the state itself; for `UnweightedSamples`
the per-key empirical average (`unweighted_samples.py` `mean`).  `none`
when a sample lacks one of the keys (Python `KeyError`). -/
def mean : UncertainData → Option (List (String × ℚ))
  | .scalar state => some state
  | .samples data =>
      (keys (.samples data)).mapM (fun k =>
        (data.mapM (alookup k)).map
          (fun vs => (k, vs.sum / (vs.length : ℚ))))

end UncertainData

/-- Embeds `ScalarData.sample(n)` (`scalar_data.py` line 73): returns
`UnweightedSamples([state] * n)`. -/
def scalarSample (state : List (String × ℚ)) (n : ℕ) : List (List (String × ℚ)) :=
  List.replicate n state

/-- Embeds `ScalarData.cov` (`scalar_data.py` line 67):
`[[0 for _ in range(len(state))] for _ in range(len(state))]`. -/
def scalarCov (state : List (String × ℚ)) : List (List ℚ) :=
  (List.range state.length).map (fun _ => (List.range state.length).map (fun _ => (0 : ℚ)))

/-- Embeds `UnweightedSamples.sample(n)` (`unweighted_samples.py` line 91):
`np.random.choice(len(data), n)` raises a `ValueError` exactly when the
pool is empty and `n ≠ 0`; otherwise it draws `n` indices into the
pool.  The random generator is modelled by the oracle `rng`, whose
values are reduced mod the pool size. -/
def unweightedSample (data : List (List (String × ℚ))) (rng : ℕ → ℕ) (n : ℕ) :
    Except String (List (List (String × ℚ))) :=
  if data.length = 0 ∧ n ≠ 0 then
    .error "a must be greater than 0 unless no samples are taken"
  else
    .ok ((List.range n).map (fun i => data.getD (rng i % data.length) []))

/-- Embeds `ScalarData.percentage_in_bounds` (`scalar_data.py` line 84):
`{key: (1 if bounds[key][0] < x and bounds[key][1] > x else 0) ...}`.
`none` when `bounds` lacks one of the state's keys. -/
def scalarPercentageInBounds (state : List (String × ℚ)) (bounds : List (String × (ℚ × ℚ))) :
    Option (List (String × ℚ)) :=
  state.mapM (fun kv =>
    (alookup kv.1 bounds).map
      (fun b => (kv.1, if b.1 < kv.2 ∧ b.2 > kv.2 then (1 : ℚ) else 0)))

/-- Embeds `UnweightedSamples.percentage_in_bounds` (`unweighted_samples.py`
line 176): per key, the count of samples strictly inside the bounds
divided by the number of samples. -/
def samplesPercentageInBounds (data : List (List (String × ℚ)))
    (bounds : List (String × (ℚ × ℚ))) : Option (List (String × ℚ)) :=
  (UncertainData.keys (.samples data)).mapM (fun k => do
    let b ← alookup k bounds
    let vs ← data.mapM (alookup k)
    return (k, ((vs.filter (fun x => x < b.2 ∧ x > b.1)).length : ℚ) / (data.length : ℚ)))

/-- Dispatch of `percentage_in_bounds` over the two embedded variants. -/
def UncertainData.percentageInBounds : UncertainData → List (String × (ℚ × ℚ)) →
    Option (List (String × ℚ))
  | .scalar state, bounds => scalarPercentageInBounds state bounds
  | .samples data, bounds => samplesPercentageInBounds data bounds

/-! ## ToE prediction-profile metrics

From `src/progpy/metrics/toe_profile_metrics.py` and
`src/progpy/uncertain_data/uncertain_data.py`.  A
`ToEPredictionProfile` is a dict from time-of-prediction to a ToE
distribution whose iteration is in increasing prediction-time order
(`toe_prediction_profile.py` lines 23-42); we embed it as a list of
pairs and sort before iterating. -/

/-- Iteration order of a `ToEPredictionProfile`: ascending time of
prediction. -/
def sortProfile (profile : List (ℚ × UncertainData)) : List (ℚ × UncertainData) :=
  profile.mergeSort (fun a b => decide (a.1 ≤ b.1))

/-- Embeds `alpha_lambda` (`toe_profile_metrics.py` lines 33-46): at the first
prediction made at or after `lambda_value`, per ground-truth event the
bounds `gt ± alpha·(gt − t_prediction)` are formed, and per key of the
ToE distribution the fraction in bounds is compared with `beta`.
Returns `none` when no prediction exists at or after `lambda_value`
(Python returns `None`) or on a key mismatch (Python `KeyError`). -/
def alpha_lambda (profile : List (ℚ × UncertainData)) (ground_truth : List (String × ℚ))
    (lambda_value alpha beta : ℚ) : Option (List (String × Bool)) :=
  match (sortProfile profile).find? (fun p => decide (lambda_value ≤ p.1)) with
  | none => none
  | some (t_prediction, toe) => do
      let bounds := ground_truth.map (fun kg =>
        (kg.1, (kg.2 - alpha * (kg.2 - t_prediction), kg.2 + alpha * (kg.2 - t_prediction))))
      let pib ← toe.percentageInBounds bounds
      toe.keys.mapM (fun key =>
        (alookup key pib).map (fun p => (key, decide (beta ≤ p))))

/-- Embeds `UncertainData.relative_accuracy` (`uncertain_data.py` lines
97-102): raises `ZeroDivisionError` when any ground-truth value is
zero, else returns `1 − |gt − mean| / gt` per mean key. -/
def relative_accuracy (d : UncertainData) (ground_truth : List (String × ℚ)) :
    Except String (List (String × ℚ)) :=
  if ground_truth.any (fun kg => decide (kg.2 = 0)) then
    .error "Ground truth values must be non-zero in calculating relative accuracy."
  else
    match d.mean with
    | none => .error "KeyError"
    | some m =>
        m.mapM (fun kv =>
          match alookup kv.1 ground_truth with
          | none => .error ("KeyError: " ++ kv.1)
          | some g => .ok (kv.1, 1 - |g - kv.2| / g))

/-- Python `sums[k] += v` on a `defaultdict(int)`: add into the existing entry,
or create it (at the end, Python dict insertion order) with initial
value `0`. -/
def dAdd : List (String × ℚ) → String → ℚ → List (String × ℚ)
  | [], k, v => [(k, v)]
  | (k', v') :: rest, k, v =>
      if k' = k then (k', v' + v) :: rest else (k', v') :: dAdd rest k v

/-- Embeds `cumulative_relative_accuracy` (`toe_profile_metrics.py` lines
105-109): sums each prediction's per-event relative accuracy into a
`defaultdict(int)` and divides by the number of predictions. -/
def cumulative_relative_accuracy (profile : List (ℚ × UncertainData))
    (ground_truth : List (String × ℚ)) : Except String (List (String × ℚ)) := do
  let sums ← (sortProfile profile).foldlM (fun sums p => do
      let ras ← relative_accuracy p.2 ground_truth
      return ras.foldl (fun s kv => dAdd s kv.1 kv.2) sums) []
  return sums.map (fun kv => (kv.1, kv.2 / (profile.length : ℚ)))

/-- Embeds `numpy.sign`, as used by `monotonicity`. -/
def sign (x : ℚ) : ℚ := if 0 < x then 1 else if x < 0 then -1 else 0

/-- Python `by_event[k].append(v)` on a `defaultdict(list)`. -/
def dAppend : List (String × List ℚ) → String → ℚ → List (String × List ℚ)
  | [], k, v => [(k, [v])]
  | (k', l) :: rest, k, v =>
      if k' = k then (k', l ++ [v]) :: rest else (k', l) :: dAppend rest k v

/-- Embeds `monotonicity` (`toe_profile_metrics.py` lines 128-140): per event
collects `mean − prediction_time` across the profile in increasing
prediction-time order, then computes `|Σ sign(l[i+1]−l[i]) / (N−1)|`.
A profile with a single prediction raises `ZeroDivisionError`
(`0/0` in Python); a key mismatch in a mean raises `KeyError`. -/
def monotonicity (profile : List (ℚ × UncertainData)) :
    Except String (List (String × ℚ)) := do
  let by_event ← (sortProfile profile).foldlM (fun acc p =>
      match p.2.mean with
      | none => Except.error "KeyError"
      | some m => Except.ok (m.foldl (fun acc2 kv => dAppend acc2 kv.1 (kv.2 - p.1)) acc))
    ([] : List (String × List ℚ))
  by_event.mapM (fun kl =>
    let mono_sum := (kl.2.zip kl.2.tail).map (fun ab => sign (ab.2 - ab.1))
    if kl.2.length = 1 then Except.error "ZeroDivisionError: division by zero"
    else Except.ok (kl.1, |mono_sum.sum / ((kl.2.length : ℚ) - 1)|))

/-! ## State-estimator time stepping

From `src/progpy/state_estimators/`.  `estimate(t, u, z)` asserts
`t > self.t`, computes a sub-step, then advances the clock `self.t` in
a `while self.t < t` loop.  We embed the clock arithmetic of each
estimator's loop (the belief update is orthogonal to the claims). -/

/-- The fixed-sub-step predict loop shared by `KalmanFilter.estimate`
(`kalman_filter.py` lines 157-159) and
`UnscentedKalmanFilter.estimate` (`unscented_kalman_filter.py` lines
129-131): `while self.t < t: predict(); self.t += dt`.  The `dt ≤ 0`
guard is unreachable in the source (`dt > 0` is validated at
construction and `estimate` asserts `t > self.t`); it only makes the
loop total. -/
def advanceLoop (t dt : ℚ) (clock : ℚ) : ℚ :=
  if h : dt ≤ 0 then clock
  else if h2 : clock < t then advanceLoop t dt (clock + dt) else clock
termination_by Nat.ceil ((t - clock) / dt)
decreasing_by
  have hdt : 0 < dt := lt_of_not_ge h
  have hx : 0 < (t - clock) / dt := div_pos (by linarith) hdt
  have hone : 1 ≤ Nat.ceil ((t - clock) / dt) := Nat.one_le_ceil_iff.mpr hx
  have heq : (t - (clock + dt)) / dt = (t - clock) / dt - 1 := by
    field_simp
    ring
  rw [heq]
  have hle : Nat.ceil ((t - clock) / dt - 1) ≤ Nat.ceil ((t - clock) / dt) - 1 := by
    rw [Nat.ceil_le]
    push_cast [Nat.cast_sub hone]
    have := Nat.le_ceil ((t - clock) / dt)
    linarith
  omega

/-- The per-sub-step-recomputed loop of `ParticleFilter.estimate` in
the vectorized branch (`particle_filter.py` lines 133-137) and the
per-particle loop of the non-vectorized branch (lines 148-153):
`while t_cur < t: dt_i = min(dt, t - t_cur); t_cur += dt_i`.  The
`dt ≤ 0` guard is unreachable in the source; it only makes the loop
total. -/
def pfAdvanceLoop (t dt : ℚ) (clock : ℚ) : ℚ :=
  if h : dt ≤ 0 then clock
  else if h2 : clock < t then pfAdvanceLoop t dt (clock + min dt (t - clock)) else clock
termination_by Nat.ceil ((t - clock) / dt)
decreasing_by
  have hdt : 0 < dt := lt_of_not_ge h
  have hx : 0 < (t - clock) / dt := div_pos (by linarith) hdt
  have hone : 1 ≤ Nat.ceil ((t - clock) / dt) := Nat.one_le_ceil_iff.mpr hx
  rcases min_cases dt (t - clock) with ⟨hmin, hcase⟩ | ⟨hmin, hcase⟩
  · have heq : (t - (clock + min dt (t - clock))) / dt = (t - clock) / dt - 1 := by
      rw [hmin]; field_simp; ring
    rw [heq]
    have hle : Nat.ceil ((t - clock) / dt - 1) ≤ Nat.ceil ((t - clock) / dt) - 1 := by
      rw [Nat.ceil_le]
      push_cast [Nat.cast_sub hone]
      have := Nat.le_ceil ((t - clock) / dt)
      linarith
    omega
  · have heq : t - (clock + min dt (t - clock)) = 0 := by rw [hmin]; ring
    rw [heq]
    simpa using hone

/-- Clock arithmetic of `KalmanFilter.estimate` (`kalman_filter.py`
lines 133-159): `dt = min(t - self.t, dt_max)`, then the fixed-step
predict loop.  Returns the value of `self.t` when the call returns. -/
def kalman_estimate_clock (clock t dt_max : ℚ) : ℚ :=
  advanceLoop t (min (t - clock) dt_max) clock

/-- Clock arithmetic of `UnscentedKalmanFilter.estimate`
(`unscented_kalman_filter.py` lines 125-131): identical stepping to the
Kalman filter's. -/
def ukf_estimate_clock (clock t dt_max : ℚ) : ℚ :=
  advanceLoop t (min (t - clock) dt_max) clock

/-- Clock arithmetic of `ParticleFilter.estimate` in the vectorized
branch (`particle_filter.py` lines 110-137): when no explicit `dt` is
passed, `dt = min(t - self.t, parameters['dt'])`, then the loop with
per-iteration `dt_i = min(dt, t - self.t)`. -/
def particle_vectorized_clock (clock t dt_max : ℚ) : ℚ :=
  pfAdvanceLoop t (min (t - clock) dt_max) clock

/-- Clock update of `ParticleFilter.estimate` in the non-vectorized
branch (`particle_filter.py` line 159): `self.t = t`. -/
def particle_nonvectorized_clock (clock t : ℚ) : ℚ := t

/-! ## MonteCarlo predictor

From `src/progpy/predictors/monte_carlo.py`.  The Model collaborator
(`PrognosticsModel`: `simulate_to_threshold`, `threshold_met`, noise
application) is external to the embedded core (its code is not part of
the verified sources), so it is passed in as parameters: `sim`
abstracts `simulate_to_threshold` by its final simulated time and
state, `tm` abstracts `threshold_met`. -/

/-- Values of `event_strategy` accepted by `MonteCarlo.predict`
(`monte_carlo.py` lines 233-238): `'all'`, or `'first'` (the source
treats `'any'` as a synonym of `'first'`). -/
inductive EventStrategy where
  | first
  | all
  deriving DecidableEq, Repr

/-- The per-realization event loop of `MonteCarlo.predict`
(`monte_carlo.py` lines 190-246): while events remain, simulate to
threshold from the current time and state, find the first remaining
event whose threshold is met at the final state (insertion order of
`t_met`, i.e. `events_remaining` order); if none is met the horizon was
hit and every remaining event is recorded as `None`; otherwise the
event's arrival time is recorded, the event is removed (strategy
`all`) or the remaining list is cleared (strategy `first`), and
simulation resumes from the popped final time and state.

Arguments mirror the source: `sim t0 x events horizon` returns the
final `(times[-1], states[-1])` of `simulate_to_threshold`; `tm`
is `threshold_met`; the accumulators are the dicts `time_of_event` and
`last_state`. -/
def mcEventLoop {σ : Type} (sim : ℚ → σ → List String → ℚ → ℚ × σ)
    (tm : σ → String → Bool) (strategy : EventStrategy) (horizon t0_init : ℚ) :
    List String → ℚ → σ → List (String × Option ℚ) → List (String × Option σ) →
    List (String × Option ℚ) × List (String × Option σ)
  | [], _, _, time_of_event, last_state => (time_of_event, last_state)
  | e :: rest, t0, x, time_of_event, last_state =>
      let out := sim t0 x (e :: rest) (horizon - (t0 - t0_init))
      match hfind : (e :: rest).find? (fun ev => tm out.2 ev) with
      | none =>
          (time_of_event ++ (e :: rest).map (fun ev => (ev, none)),
           last_state ++ (e :: rest).map (fun ev => (ev, none)))
      | some ev =>
          let toe' := time_of_event ++ [(ev, some out.1)]
          let last' := last_state ++ [(ev, some out.2)]
          match strategy with
          | .all =>
              mcEventLoop sim tm .all horizon t0_init
                ((e :: rest).erase ev) out.1 out.2 toe' last'
          | .first =>
              mcEventLoop sim tm .first horizon t0_init [] out.1 out.2 toe' last'
termination_by events => events.length
decreasing_by
  · have hmem : ev ∈ e :: rest := List.mem_of_find?_eq_some hfind
    have := List.length_erase_of_mem hmem
    simp only [this]
    simp [List.length_cons]
  · simp

/-- One realization of `MonteCarlo.predict` with a non-empty event
list: the event loop started from the prediction's `t0` and the
realization's initial state with empty recording dicts
(`monte_carlo.py` lines 172-177, 190-246). -/
def mcRealization {σ : Type} (sim : ℚ → σ → List String → ℚ → ℚ × σ)
    (tm : σ → String → Bool) (strategy : EventStrategy) (horizon t0 : ℚ)
    (events : List String) (x : σ) :
    List (String × Option ℚ) × List (String × Option σ) :=
  mcEventLoop sim tm strategy horizon t0 events t0 x [] []

/-! ### Predictor parameter validation

`Predictor.__init__` sets `parameters = deepcopy(default_parameters);
parameters.update(ctor_kwargs)` (`predictor.py` lines 41-42), and each
`predict` starts with `params = deepcopy(self.parameters);
params.update(call_kwargs)`.  Only key presence matters to the
empty-events check, so parameter dicts are embedded by their key
lists. -/

/-- Key set of `dict.update`: the base keys followed by the new keys
not already present. -/
def keysUpdate (base ks : List String) : List String :=
  base ++ ks.filter (fun k => !base.contains k)

/-- Keys of `MonteCarlo.default_parameters` (`monte_carlo.py` lines
31-35): no `horizon` entry. -/
def mcDefaultParamKeys : List String := ["n_samples", "event_strategy", "constant_noise"]

/-- Keys of `UnscentedTransformPredictor.default_parameters`
(`unscented_transform.py` lines 87-97): includes `horizon` (default
`1e99`). -/
def utpDefaultParamKeys : List String :=
  ["alpha", "beta", "kappa", "t0", "dt", "event_strategy", "horizon", "save_pts", "save_freq"]

/-- The requested-events validation of `MonteCarlo.predict`
(`monte_carlo.py` lines 118-124), for an explicit `events` list:
an empty list without a `horizon` parameter is a `ValueError`, and
every event must be declared by the model.  `ctorKeys`/`callKeys` are
the keyword-argument names given at construction and at the call. -/
def mcPredictEventCheck (modelEvents events ctorKeys callKeys : List String) :
    Except String Unit :=
  let params := keysUpdate (keysUpdate mcDefaultParamKeys ctorKeys) callKeys
  if events.length = 0 && !params.contains "horizon" then
    .error "If specifying no event (i.e., simulate to time), must specify horizon"
  else if !events.all (fun key => modelEvents.contains key) then
    .error "`events` must be event names"
  else
    .ok ()

/-- The corresponding validation of `UnscentedTransformPredictor.predict`
(`unscented_transform.py` lines 184-206): first the event-strategy
check (only `'all'` is supported), then the same events checks as the
Monte Carlo predictor, against the UT predictor's default parameter
keys. -/
def utpPredictEventCheck (event_strategy : String)
    (modelEvents events ctorKeys callKeys : List String) : Except String Unit :=
  if event_strategy ≠ "all" then
    .error ("`event_strategy` " ++ event_strategy ++ " not supported. Currently, only 'all' event strategy is supported")
  else
    let params := keysUpdate (keysUpdate utpDefaultParamKeys ctorKeys) callKeys
    if events.length = 0 && !params.contains "horizon" then
      .error "If specifying no event (i.e., simulate to time), must specify horizon"
    else if !events.all (fun key => modelEvents.contains key) then
      .error "`events` must be event names"
    else
      .ok ()

/-! ### Constant-noise save/override/restore

`MonteCarlo.predict` with `constant_noise` saves the model's
`process_noise` and `process_noise_dist` parameters before the
realization loop (`monte_carlo.py` lines 153-156), overrides them for
each realization (lines 162-168), and writes the saved values back
after each realization (lines 258-261). -/

/-- A model parameter value: numeric, string, or a labelled vector
(such as the per-realization noise `StateContainer`). -/
inductive PVal where
  | num (q : ℚ)
  | str (s : String)
  | vec (v : List (String × ℚ))
  deriving DecidableEq, Repr

/-- The realization loop of `MonteCarlo.predict`, restricted to its
effect on the model's parameter dict (`monte_carlo.py` lines 161-261):
per realization the two noise parameters are overridden
(`process_noise` to the sampled per-realization noise,
`process_noise_dist` to `'constant'`) and afterwards both are written
back to the values saved before the loop.  Simulation itself reads but
never writes the model parameters. -/
def mcNoiseRealizations {σ : Type} (noiseOf : σ → PVal) (savedPN savedPND : PVal) :
    List σ → List (String × PVal) → List (String × PVal)
  | [], m => m
  | x :: rest, m =>
      let m1 := aset "process_noise_dist" (.str "constant")
        (aset "process_noise" (noiseOf x) m)
      let m2 := aset "process_noise_dist" savedPND (aset "process_noise" savedPN m1)
      mcNoiseRealizations noiseOf savedPN savedPND rest m2

/-- The effect of a normally-returning `MonteCarlo.predict` call on the
model's parameter dict (`monte_carlo.py` lines 153-156, 161-168,
258-261).  Reading `self.model['process_noise']` raises `KeyError` when
absent; `process_noise_dist` is read with `.get(…, 'normal')`. -/
def mcPredictNoise {σ : Type} (noiseOf : σ → PVal) (state : List σ)
    (constant_noise : Bool) (m : List (String × PVal)) :
    Except String (List (String × PVal)) :=
  if constant_noise then
    match alookup "process_noise" m with
    | none => .error "KeyError: process_noise"
    | some process_noise =>
        let process_noise_dist := alookupD "process_noise_dist" m (.str "normal")
        .ok (mcNoiseRealizations noiseOf process_noise process_noise_dist state m)
  else
    .ok m

/-- Specification-side summand for `cumulative_relative_accuracy`: the
relative accuracy `1 − |gt − mean| / gt` of prediction `p`'s mean for
event `k` against ground truth `gt`. -/
def relAccAt (gt : List (String × ℚ)) (k : String) (p : ℚ × UncertainData) : ℚ :=
  1 - |(alookup k gt).getD 0 - (alookup k ((p.2.mean).getD [])).getD 0|
        / (alookup k gt).getD 0

/-- The `foldlM` step of `cumulative_relative_accuracy`: one
prediction's relative accuracies are accumulated into the per-event
sums. -/
def craStep (gt : List (String × ℚ)) (sums : List (String × ℚ))
    (p : ℚ × UncertainData) : Except String (List (String × ℚ)) := do
  let ras ← relative_accuracy p.2 gt
  return ras.foldl (fun s kv => dAdd s kv.1 kv.2) sums

/-- A profile of single-event point predictions: at time `t`, a
`ScalarData` ToE prediction `{k: v}`. -/
def scalarProfile (k : String) (pts : List (ℚ × ℚ)) : List (ℚ × UncertainData) :=
  pts.map (fun p => (p.1, UncertainData.scalar [(k, p.2)]))

/-- A sequence alternating between two fixed values, starting and
ending with `a`: `a, b, a, …, a` with `2·m + 1` entries (`2·m`
steps). -/
def altList (a b : ℚ) : ℕ → List ℚ
  | 0 => [a]
  | m + 1 => a :: b :: altList a b m

/-- The per-prediction step of `monotonicity`'s `by_event` accumulation
(named form of the fold body, for reasoning). -/
def monoStep (acc : List (String × List ℚ)) (p : ℚ × UncertainData) :
    Except String (List (String × List ℚ)) :=
  match p.2.mean with
  | none => Except.error "KeyError"
  | some m => Except.ok (m.foldl (fun acc2 kv => dAppend acc2 kv.1 (kv.2 - p.1)) acc)

/-- The per-event final computation of `monotonicity` (named form). -/
def monoFinish (kl : String × List ℚ) : Except String (String × ℚ) :=
  let mono_sum := (kl.2.zip kl.2.tail).map (fun ab => sign (ab.2 - ab.1))
  if kl.2.length = 1 then Except.error "ZeroDivisionError: division by zero"
  else Except.ok (kl.1, |mono_sum.sum / ((kl.2.length : ℚ) - 1)|)

/-! ## General lemmas on the embedding's building blocks -/

@[simp] theorem alookup_nil (k : String) : alookup k ([] : List (String × α)) = none := rfl

@[simp] theorem alookup_cons (k : String) (kv : String × α) (rest : List (String × α)) :
    alookup k (kv :: rest) = if kv.1 = k then some kv.2 else alookup k rest := by
  obtain ⟨k', v⟩ := kv
  rfl

theorem alookup_aset_self (k : String) (v : α) (l : List (String × α)) :
    alookup k (aset k v l) = some v := by
  induction l with
  | nil => simp [aset]
  | cons hd tl ih =>
      obtain ⟨k', v'⟩ := hd
      by_cases h : k' = k <;> simp [aset, h, ih]

theorem alookup_aset_ne (k k' : String) (hne : k' ≠ k) (v : α) (l : List (String × α)) :
    alookup k (aset k' v l) = alookup k l := by
  induction l with
  | nil => simp [aset, hne]
  | cons hd tl ih =>
      obtain ⟨k'', v''⟩ := hd
      by_cases h : k'' = k' <;> by_cases h2 : k'' = k <;>
        simp_all [aset]

theorem mapM_option_eq_map {α β : Type} (l : List α) (f : α → Option β) (g : α → β)
    (h : ∀ a ∈ l, f a = some (g a)) : l.mapM f = some (l.map g) := by
  induction l with
  | nil => rfl
  | cons a rest ih =>
      rw [List.mapM_cons, h a (List.mem_cons_self a rest),
        ih (fun a ha => h a (List.mem_cons_of_mem _ ha))]
      rfl

theorem mapM_option_mem_fwd {α β : Type} {l : List α} {f : α → Option β} {l' : List β}
    (h : l.mapM f = some l') : ∀ a ∈ l, ∃ b, f a = some b ∧ b ∈ l' := by
  induction l generalizing l' with
  | nil => intro a ha; cases ha
  | cons x rest ih =>
      rw [List.mapM_cons] at h
      cases hx : f x with
      | none => rw [hx] at h; cases h
      | some b =>
          rw [hx] at h
          cases hrest : rest.mapM f with
          | none => rw [hrest] at h; cases h
          | some bs =>
              rw [hrest] at h
              simp only [Option.map_eq_map, Option.pure_def, Option.bind_eq_bind,
                Option.some_bind, Option.some.injEq] at h
              subst h
              intro a ha
              rcases List.mem_cons.mp ha with rfl | ha'
              · exact ⟨b, hx, List.mem_cons_self _ _⟩
              · obtain ⟨c, hc, hcm⟩ := ih hrest a ha'
                exact ⟨c, hc, List.mem_cons_of_mem _ hcm⟩

theorem mapM_option_mem_bwd {α β : Type} {l : List α} {f : α → Option β} {l' : List β}
    (h : l.mapM f = some l') : ∀ b ∈ l', ∃ a ∈ l, f a = some b := by
  induction l generalizing l' with
  | nil =>
      cases h
      intro b hb; cases hb
  | cons x rest ih =>
      rw [List.mapM_cons] at h
      cases hx : f x with
      | none => rw [hx] at h; cases h
      | some c =>
          rw [hx] at h
          cases hrest : rest.mapM f with
          | none => rw [hrest] at h; cases h
          | some bs =>
              rw [hrest] at h
              simp only [Option.map_eq_map, Option.pure_def, Option.bind_eq_bind,
                Option.some_bind, Option.some.injEq] at h
              subst h
              intro b hb
              rcases List.mem_cons.mp hb with rfl | hb'
              · exact ⟨x, List.mem_cons_self _ _, hx⟩
              · obtain ⟨a, ha, hfa⟩ := ih hrest b hb'
                exact ⟨a, List.mem_cons_of_mem _ ha, hfa⟩

theorem mapM_except_eq_map {α β : Type} (l : List α) (f : α → Except String β) (g : α → β)
    (h : ∀ a ∈ l, f a = .ok (g a)) : l.mapM f = .ok (l.map g) := by
  induction l with
  | nil => rfl
  | cons a rest ih =>
      rw [List.mapM_cons, h a (List.mem_cons_self a rest),
        ih (fun a ha => h a (List.mem_cons_of_mem _ ha))]
      rfl

theorem mapM_except_mem_bwd {α β : Type} {l : List α} {f : α → Except String β} {l' : List β}
    (h : l.mapM f = .ok l') : ∀ b ∈ l', ∃ a ∈ l, f a = .ok b := by
  induction l generalizing l' with
  | nil =>
      cases h
      intro b hb; cases hb
  | cons x rest ih =>
      rw [List.mapM_cons] at h
      cases hx : f x with
      | error e => rw [hx] at h; cases h
      | ok c =>
          rw [hx] at h
          cases hrest : rest.mapM f with
          | error e => rw [hrest] at h; cases h
          | ok bs =>
              rw [hrest] at h
              have h2 : (c :: bs) = l' := Except.ok.inj h
              subst h2
              intro b hb
              rcases List.mem_cons.mp hb with rfl | hb'
              · exact ⟨x, List.mem_cons_self _ _, hx⟩
              · obtain ⟨a, ha, hfa⟩ := ih hrest b hb'
                exact ⟨a, List.mem_cons_of_mem _ ha, hfa⟩

theorem alookup_map_snd {α β : Type} (k : String) (l : List (String × α)) (f : α → β) :
    alookup k (l.map (fun kv => (kv.1, f kv.2))) = (alookup k l).map f := by
  induction l with
  | nil => rfl
  | cons kv rest ih =>
      by_cases h : kv.1 = k <;> simp [h, ih]

theorem alookup_eq_none_of_not_mem {α : Type} (k : String) (l : List (String × α))
    (h : k ∉ l.map Prod.fst) : alookup k l = none := by
  induction l with
  | nil => rfl
  | cons kv rest ih =>
      simp only [List.map_cons, List.mem_cons] at h
      push_neg at h
      simp [Ne.symm h.1, ih h.2]

theorem alookup_eq_of_mem_nodup {α : Type} {k : String} {v : α} {l : List (String × α)}
    (hmem : (k, v) ∈ l) (hnd : (l.map Prod.fst).Nodup) : alookup k l = some v := by
  induction l with
  | nil => cases hmem
  | cons kv rest ih =>
      simp only [List.map_cons, List.nodup_cons] at hnd
      rcases List.mem_cons.mp hmem with rfl | hmem'
      · simp
      · have hne : kv.1 ≠ k := by
          intro he
          exact hnd.1 (he ▸ List.mem_map_of_mem Prod.fst hmem')
        simp [hne, ih hmem' hnd.2]

theorem alookup_isSome_iff_mem {α : Type} (k : String) (l : List (String × α)) :
    (alookup k l).isSome ↔ k ∈ l.map Prod.fst := by
  induction l with
  | nil => simp
  | cons kv rest ih =>
      by_cases h : kv.1 = k
      · simp [h]
      · have h' : ¬ k = kv.1 := fun he => h he.symm
        simp only [alookup_cons, h, if_false, List.map_cons, List.mem_cons, ih]
        exact ⟨Or.inr, fun hor => hor.resolve_left h'⟩

theorem alookup_append_of_isSome {α : Type} (k : String) (l l' : List (String × α))
    (h : (alookup k l).isSome) : alookup k (l ++ l') = alookup k l := by
  induction l with
  | nil => simp at h
  | cons kv rest ih =>
      by_cases hk : kv.1 = k <;> simp_all

theorem alookup_append_of_none {α : Type} (k : String) (l l' : List (String × α))
    (h : alookup k l = none) : alookup k (l ++ l') = alookup k l' := by
  induction l with
  | nil => simp
  | cons kv rest ih =>
      by_cases hk : kv.1 = k <;> simp_all

theorem alookupD_dAdd (s : List (String × ℚ)) (k k' : String) (v : ℚ) :
    alookupD k (dAdd s k' v) 0 = alookupD k s 0 + (if k' = k then v else 0) := by
  induction s with
  | nil =>
      by_cases h : k' = k <;> simp [dAdd, alookupD, h]
  | cons kv rest ih =>
      obtain ⟨k'', v''⟩ := kv
      by_cases h1 : k'' = k'
      · subst h1
        by_cases h2 : k'' = k
        · subst h2
          simp [dAdd, alookupD]
        · simp [dAdd, alookupD, h2]
      · by_cases h2 : k'' = k
        · have h3 : ¬ k' = k := fun he => h1 (h2.trans he.symm)
          have h4 : ¬ k = k' := fun he => h3 he.symm
          simp [dAdd, alookupD, h1, h2, h3, h4]
        · simp only [dAdd, if_neg h1, alookup_cons, if_neg h2, alookupD] at ih ⊢
          exact ih

theorem alookup_dAdd_isSome (s : List (String × ℚ)) (k k' : String) (v : ℚ) :
    (alookup k (dAdd s k' v)).isSome ↔ k' = k ∨ (alookup k s).isSome := by
  induction s with
  | nil => by_cases h : k' = k <;> simp [dAdd, h]
  | cons kv rest ih =>
      obtain ⟨k'', v''⟩ := kv
      by_cases h1 : k'' = k'
      · subst h1
        by_cases h2 : k'' = k
        · simp [dAdd, h2]
        · simp [dAdd, h2, ih]
      · by_cases h2 : k'' = k
        · have h3 : ¬ k = k' := fun he => h1 (h2.trans he)
          simp [dAdd, h1, h2, h3]
        · simp [dAdd, h1, h2, ih]

theorem abs_sum_le_length (l : List ℚ) (h : ∀ x ∈ l, |x| ≤ 1) :
    |l.sum| ≤ (l.length : ℚ) := by
  induction l with
  | nil => simp
  | cons x rest ih =>
      have hx := h x (List.mem_cons_self x rest)
      have hr := ih (fun y hy => h y (List.mem_cons_of_mem _ hy))
      calc |(x :: rest).sum| = |x + rest.sum| := by simp
        _ ≤ |x| + |rest.sum| := abs_add _ _
        _ ≤ 1 + rest.length := by linarith
        _ = ((x :: rest).length : ℚ) := by simp [add_comm]

/-! ## Claim C8 -/

/-- C8: for every `ScalarData` `d` and every `n ≥ 1`, `d.sample(n)`
returns a Samples distribution with exactly `n` entries, each equal to
`d.mean`; and `d.cov` is the all-zero square matrix whose dimension
equals the number of keys of `d`. -/
theorem c8_scalar_sample_cov (state : List (String × ℚ)) (n : ℕ) (h : 1 ≤ n) :
    (scalarSample state n).length = n ∧
    (∀ s ∈ scalarSample state n, (UncertainData.scalar state).mean = some s) ∧
    (scalarCov state).length = (UncertainData.scalar state).keys.length ∧
    (∀ row ∈ scalarCov state,
      row.length = (UncertainData.scalar state).keys.length ∧ ∀ x ∈ row, x = 0) := by
  refine ⟨by simp [scalarSample], ?_, ?_, ?_⟩
  · intro s hs
    rw [List.eq_of_mem_replicate hs]
    rfl
  · simp [scalarCov, UncertainData.keys]
  · intro row hrow
    simp only [scalarCov, List.mem_map] at hrow
    obtain ⟨i, _, hrow⟩ := hrow
    subst hrow
    constructor
    · simp [UncertainData.keys]
    · intro x hx
      simp only [List.mem_map] at hx
      obtain ⟨j, _, hx⟩ := hx
      exact hx.symm

/-- Witness for C8 at `state = [("a", 3), ("b", 5)]`, `n = 2`. -/
theorem c8_scalar_sample_cov_witness :
    1 ≤ 2 ∧
    ((scalarSample [("a", (3 : ℚ)), ("b", 5)] 2).length = 2 ∧
     (∀ s ∈ scalarSample [("a", (3 : ℚ)), ("b", 5)] 2,
        (UncertainData.scalar [("a", (3 : ℚ)), ("b", 5)]).mean = some s) ∧
     (scalarCov [("a", (3 : ℚ)), ("b", 5)]).length
       = (UncertainData.scalar [("a", (3 : ℚ)), ("b", 5)]).keys.length ∧
     (∀ row ∈ scalarCov [("a", (3 : ℚ)), ("b", 5)],
        row.length = (UncertainData.scalar [("a", (3 : ℚ)), ("b", 5)]).keys.length ∧
          ∀ x ∈ row, x = 0)) :=
  ⟨by decide, c8_scalar_sample_cov [("a", 3), ("b", 5)] 2 (by decide)⟩

/-! ## Claim C10 -/

/-- C10: `percentage_in_bounds` uses strict inequalities on both ends,
for `ScalarData` and for `UnweightedSamples`: a component value exactly
equal to the lower or the upper bound is counted as out of bounds, so a
point distribution sitting exactly on a bound yields 0 for that key. -/
theorem c10_percentage_in_bounds_strict :
    (∀ (state : List (String × ℚ)) (bounds : List (String × (ℚ × ℚ)))
       (pib : List (String × ℚ)) (k : String) (x lo hi : ℚ),
       scalarPercentageInBounds state bounds = some pib →
       (k, x) ∈ state → alookup k bounds = some (lo, hi) → (x = lo ∨ x = hi) →
       (k, (0 : ℚ)) ∈ pib) ∧
    (∀ (data : List (List (String × ℚ))) (bounds : List (String × (ℚ × ℚ)))
       (pib : List (String × ℚ)) (k : String) (x lo hi v : ℚ),
       samplesPercentageInBounds data bounds = some pib →
       (k, v) ∈ pib → alookup k bounds = some (lo, hi) →
       (∀ s ∈ data, alookup k s = some x) → (x = lo ∨ x = hi) →
       v = 0) := by
  constructor
  · intro state bounds pib k x lo hi hcomp hmem hb hxb
    obtain ⟨b, hfb, hbm⟩ := mapM_option_mem_fwd hcomp (k, x) hmem
    rw [hb] at hfb
    have hfb' : (k, if lo < x ∧ hi > x then (1 : ℚ) else 0) = b := Option.some.inj hfb
    have hcond : ¬ (lo < x ∧ hi > x) := by
      rcases hxb with rfl | rfl
      · exact fun hc => lt_irrefl x hc.1
      · exact fun hc => lt_irrefl x hc.2
    rw [if_neg hcond] at hfb'
    rw [← hfb'] at hbm
    exact hbm
  · intro data bounds pib k x lo hi v hcomp hmem hb hxs hxb
    obtain ⟨key, hkeys, hg⟩ := mapM_option_mem_bwd hcomp (k, v) hmem
    rcases hbk : alookup key bounds with _ | b
    · rw [hbk] at hg
      simp at hg
    rw [hbk] at hg
    simp only [Option.bind_eq_bind, Option.some_bind] at hg
    rcases hvs : data.mapM (alookup key) with _ | vs
    · rw [hvs] at hg
      simp at hg
    rw [hvs] at hg
    simp only [Option.some_bind, Option.pure_def, Option.some.injEq, Prod.mk.injEq] at hg
    obtain ⟨rfl, hv⟩ := hg
    have hvs' : data.mapM (alookup key) = some (data.map (fun _ => x)) :=
      mapM_option_eq_map data (alookup key) (fun _ => x) hxs
    rw [hvs'] at hvs
    obtain rfl := Option.some.inj hvs
    rw [hb] at hbk
    obtain rfl := Option.some.inj hbk
    have hfilter : ∀ p : ℚ → Bool, (∀ a, p a = decide (a < hi ∧ a > lo)) →
        (data.map (fun _ => x)).filter p = [] := by
      intro p hp
      rw [List.filter_eq_nil_iff]
      intro a ha
      rw [List.mem_map] at ha
      obtain ⟨_, _, rfl⟩ := ha
      rw [hp]
      rcases hxb with rfl | rfl
      · simp
      · simp
    rw [hfilter _ (fun a => rfl)] at hv
    simpa using hv.symm

/-- Witness for C10: a point value sitting on the lower bound gets 0,
in both variants. -/
theorem c10_percentage_in_bounds_strict_witness :
    (scalarPercentageInBounds [("a", 5)] [("a", (5, 7))] = some [("a", 0)] ∧
      ("a", (0 : ℚ)) ∈ [(("a" : String), (0 : ℚ))]) ∧
    (samplesPercentageInBounds [[("a", 5)], [("a", 5)]] [("a", (5, 7))]
        = some [("a", 0)] ∧
      (0 : ℚ) = 0) :=
  ⟨⟨by decide,
    c10_percentage_in_bounds_strict.1 [("a", 5)] [("a", (5, 7))] [("a", 0)] "a" 5 5 7
      (by decide) (by decide) (by decide) (Or.inl rfl)⟩,
   ⟨by simp [samplesPercentageInBounds, UncertainData.keys, alookup, List.mapM, List.mapM.loop],
    c10_percentage_in_bounds_strict.2 [[("a", 5)], [("a", 5)]] [("a", (5, 7))]
      [("a", 0)] "a" 5 5 7 0
      (by simp [samplesPercentageInBounds, UncertainData.keys, alookup, List.mapM, List.mapM.loop])
      (by decide) (by decide) (by decide) (Or.inl rfl)⟩⟩

/-! ## Claim C7 -/

/-- C7 counterexample: sampling with `n = 0` does not fail.
`ScalarData.sample(0)` returns an empty Samples distribution, and even
on an empty `UnweightedSamples` distribution `sample(0)` succeeds
(numpy's `random.choice` only rejects an empty pool when samples are
actually taken), contradicting the claim that `n = 0` is invalid for
every distribution and that sampling an empty distribution fails for
every `n`. -/
theorem c7_counterexample :
    scalarSample [("a", (42 : ℚ))] 0 = [] ∧
    unweightedSample [] (fun _ => 0) 0 = .ok [] :=
  ⟨rfl, rfl⟩

/-- C7 amended: sampling with `n = 0` is not rejected — it returns an
empty Samples distribution (`ScalarData.sample(0)` returns 0 copies,
and `sample(0)` on an empty `UnweightedSamples` succeeds); sampling
from an empty `UnweightedSamples` distribution fails, with numpy's
empty-pool `ValueError`, exactly for every `n ≥ 1`. -/
theorem c7_amended_sampling :
    (∀ (rng : ℕ → ℕ) (n : ℕ), 1 ≤ n →
      unweightedSample [] rng n
        = .error "a must be greater than 0 unless no samples are taken") ∧
    (∀ rng : ℕ → ℕ, unweightedSample [] rng 0 = .ok []) ∧
    (∀ state : List (String × ℚ), scalarSample state 0 = []) := by
  refine ⟨?_, fun rng => rfl, fun state => rfl⟩
  intro rng n hn
  rw [unweightedSample, if_pos ⟨rfl, by omega⟩]

/-- Witness for the amended C7 at `n = 3`. -/
theorem c7_amended_sampling_witness :
    1 ≤ 3 ∧
    unweightedSample [] (fun _ => 0) 3
      = .error "a must be greater than 0 unless no samples are taken" :=
  ⟨by decide, c7_amended_sampling.1 (fun _ => 0) 3 (by decide)⟩

/-! ## Claim C6 -/

theorem mem_keysUpdate (k : String) (base ks : List String) :
    k ∈ keysUpdate base ks ↔ k ∈ base ∨ k ∈ ks := by
  simp only [keysUpdate, List.mem_append, List.mem_filter]
  constructor
  · rintro (h | ⟨h, _⟩)
    · exact Or.inl h
    · exact Or.inr h
  · rintro (h | h)
    · exact Or.inl h
    · by_cases hb : k ∈ base
      · exact Or.inl hb
      · refine Or.inr ⟨h, ?_⟩
        simp [List.contains, List.elem_eq_mem, hb]

theorem contains_keysUpdate_false (k : String) (base ks : List String)
    (hb : k ∉ base) (hk : k ∉ ks) : (keysUpdate base ks).contains k = false := by
  simp only [List.contains, List.elem_eq_mem, decide_eq_false_iff_not, mem_keysUpdate]
  rintro (h | h)
  · exact hb h
  · exact hk h

/-- C6 counterexample: for the `UnscentedTransformPredictor`, a call
with an empty requested-events list and no `horizon` keyword given at
construction or call passes validation (its `default_parameters`
always contain `horizon = 1e99`, so the empty-events check can never
fire), contradicting the claim that both predictors fail. -/
theorem c6_counterexample :
    utpPredictEventCheck "all" ["impact"] [] [] [] = .ok () := by
  rfl

/-- C6 amended: for `MonteCarlo.predict`, an empty requested-events
list with no `horizon` parameter (neither at construction nor at the
call) fails with a configuration error before any simulation starts,
and an empty events list with a `horizon` given is legal; for the
`UnscentedTransformPredictor`, whose default parameters always contain
`horizon` (`1e99`), an empty events list is always legal — the
empty-events check never fires, with or without an explicit horizon. -/
theorem c6_empty_events_validation :
    (∀ (modelEvents ctorKeys callKeys : List String),
       "horizon" ∉ ctorKeys → "horizon" ∉ callKeys →
       mcPredictEventCheck modelEvents [] ctorKeys callKeys =
         .error "If specifying no event (i.e., simulate to time), must specify horizon") ∧
    (∀ (modelEvents ctorKeys callKeys : List String),
       "horizon" ∈ callKeys →
       mcPredictEventCheck modelEvents [] ctorKeys callKeys = .ok ()) ∧
    (∀ (modelEvents ctorKeys callKeys : List String),
       utpPredictEventCheck "all" modelEvents [] ctorKeys callKeys = .ok ()) := by
  refine ⟨?_, ?_, ?_⟩
  · intro modelEvents ctorKeys callKeys hc hk
    have hnm : "horizon" ∉ keysUpdate (keysUpdate mcDefaultParamKeys ctorKeys) callKeys := by
      rw [mem_keysUpdate, mem_keysUpdate]
      rintro ((h | h) | h)
      · revert h
        decide
      · exact hc h
      · exact hk h
    simp [mcPredictEventCheck, hnm]
  · intro modelEvents ctorKeys callKeys hk
    have hm : "horizon" ∈ keysUpdate (keysUpdate mcDefaultParamKeys ctorKeys) callKeys :=
      (mem_keysUpdate _ _ _).mpr (Or.inr hk)
    simp [mcPredictEventCheck, hm]
  · intro modelEvents ctorKeys callKeys
    have hm : "horizon" ∈ keysUpdate (keysUpdate utpDefaultParamKeys ctorKeys) callKeys :=
      (mem_keysUpdate _ _ _).mpr (Or.inl ((mem_keysUpdate _ _ _).mpr (Or.inl (by decide))))
    simp [utpPredictEventCheck, hm]

/-- Witness for the amended C6 at concrete key lists. -/
theorem c6_empty_events_validation_witness :
    ("horizon" ∉ (["n_samples"] : List String)) ∧
    ("horizon" ∉ (["dt"] : List String)) ∧
    mcPredictEventCheck ["impact"] [] ["n_samples"] ["dt"] =
      .error "If specifying no event (i.e., simulate to time), must specify horizon" :=
  ⟨by decide, by decide,
   c6_empty_events_validation.1 ["impact"] ["n_samples"] ["dt"] (by decide) (by decide)⟩

/-! ## Claim C9 -/

theorem mcNoiseRealizations_lookup_other {σ : Type} (noiseOf : σ → PVal)
    (pn pnd : PVal) (state : List σ) (m : List (String × PVal)) (k : String)
    (h1 : k ≠ "process_noise") (h2 : k ≠ "process_noise_dist") :
    alookup k (mcNoiseRealizations noiseOf pn pnd state m) = alookup k m := by
  induction state generalizing m with
  | nil => rfl
  | cons x rest ih =>
      rw [mcNoiseRealizations, ih]
      rw [alookup_aset_ne _ _ (fun he => h2 he.symm),
        alookup_aset_ne _ _ (fun he => h1 he.symm),
        alookup_aset_ne _ _ (fun he => h2 he.symm),
        alookup_aset_ne _ _ (fun he => h1 he.symm)]

theorem mcNoiseRealizations_lookup_pn {σ : Type} (noiseOf : σ → PVal)
    (pn pnd : PVal) (state : List σ) (m : List (String × PVal))
    (hne : state ≠ []) :
    alookup "process_noise" (mcNoiseRealizations noiseOf pn pnd state m)
      = some pn := by
  induction state generalizing m with
  | nil => exact absurd rfl hne
  | cons x rest ih =>
      rw [mcNoiseRealizations]
      by_cases hrest : rest = []
      · subst hrest
        rw [mcNoiseRealizations]
        rw [alookup_aset_ne _ _ (by decide), alookup_aset_self]
      · exact ih _ hrest

theorem mcNoiseRealizations_lookup_pnd {σ : Type} (noiseOf : σ → PVal)
    (pn pnd : PVal) (state : List σ) (m : List (String × PVal))
    (hne : state ≠ []) :
    alookup "process_noise_dist" (mcNoiseRealizations noiseOf pn pnd state m)
      = some pnd := by
  induction state generalizing m with
  | nil => exact absurd rfl hne
  | cons x rest ih =>
      rw [mcNoiseRealizations]
      by_cases hrest : rest = []
      · subst hrest
        rw [mcNoiseRealizations]
        rw [alookup_aset_self]
      · exact ih _ hrest

/-- C9 counterexample: on a model whose parameters do not contain
`process_noise_dist`, a `constant_noise` predict run leaves
`process_noise_dist = 'normal'` in the model parameters — the
parameter map after the call differs from the one before the call
(the key was absent before), contradicting the claim that the noise
configuration after the call equals its value before the call. -/
theorem c9_counterexample :
    mcPredictNoise (fun _ => PVal.num 2) [(0 : ℚ)] true [("process_noise", PVal.num 1)]
      = .ok [("process_noise", PVal.num 1), ("process_noise_dist", PVal.str "normal")] ∧
    alookup "process_noise_dist" [(("process_noise" : String), PVal.num 1)] = none :=
  ⟨rfl, rfl⟩

/-- C9 amended: for a normally-returning `MonteCarlo.predict` with
`constant_noise` enabled, after the call `process_noise` equals its
value before the call, `process_noise_dist` equals its value before
the call when it was present and is `'normal'` (its default reading)
when it was previously absent, the restore happens after each
realization, and no other model parameter is changed; with
`constant_noise` disabled the parameters are untouched. -/
theorem c9_constant_noise_restore {σ : Type} (noiseOf : σ → PVal)
    (state : List σ) (m : List (String × PVal)) (pn : PVal)
    (hpn : alookup "process_noise" m = some pn) (hne : state ≠ []) :
    (∃ m', mcPredictNoise noiseOf state true m = .ok m' ∧
      alookup "process_noise" m' = alookup "process_noise" m ∧
      alookup "process_noise_dist" m'
        = some (alookupD "process_noise_dist" m (.str "normal")) ∧
      (∀ v, alookup "process_noise_dist" m = some v →
        alookup "process_noise_dist" m' = alookup "process_noise_dist" m) ∧
      (∀ k, k ≠ "process_noise" → k ≠ "process_noise_dist" →
        alookup k m' = alookup k m)) ∧
    mcPredictNoise noiseOf state false m = .ok m := by
  constructor
  · refine ⟨mcNoiseRealizations noiseOf pn (alookupD "process_noise_dist" m (.str "normal"))
      state m, ?_, ?_, ?_, ?_, ?_⟩
    · rw [mcPredictNoise, if_pos rfl, hpn]
    · rw [mcNoiseRealizations_lookup_pn _ _ _ _ _ hne, hpn]
    · rw [mcNoiseRealizations_lookup_pnd _ _ _ _ _ hne]
    · intro v hv
      rw [mcNoiseRealizations_lookup_pnd _ _ _ _ _ hne, hv, alookupD, hv]
      rfl
    · intro k h1 h2
      exact mcNoiseRealizations_lookup_other noiseOf _ _ state m k h1 h2
  · rfl

/-- Witness for the amended C9 at a concrete parameter map with
`process_noise_dist` present. -/
theorem c9_constant_noise_restore_witness :
    alookup "process_noise" [("process_noise", PVal.num 1),
        ("process_noise_dist", PVal.str "normal"), ("other", PVal.num 7)]
      = some (PVal.num 1) ∧
    ([(3 : ℚ)] ≠ []) ∧
    ((∃ m', mcPredictNoise (fun _ => PVal.num 9) [(3 : ℚ)] true
          [("process_noise", PVal.num 1), ("process_noise_dist", PVal.str "normal"),
           ("other", PVal.num 7)] = .ok m' ∧
        alookup "process_noise" m'
          = alookup "process_noise" [("process_noise", PVal.num 1),
              ("process_noise_dist", PVal.str "normal"), ("other", PVal.num 7)] ∧
        alookup "process_noise_dist" m'
          = some (alookupD "process_noise_dist"
              [("process_noise", PVal.num 1), ("process_noise_dist", PVal.str "normal"),
               ("other", PVal.num 7)] (.str "normal")) ∧
        (∀ v, alookup "process_noise_dist" [("process_noise", PVal.num 1),
              ("process_noise_dist", PVal.str "normal"), ("other", PVal.num 7)] = some v →
          alookup "process_noise_dist" m'
            = alookup "process_noise_dist" [("process_noise", PVal.num 1),
                ("process_noise_dist", PVal.str "normal"), ("other", PVal.num 7)]) ∧
        (∀ k, k ≠ "process_noise" → k ≠ "process_noise_dist" →
          alookup k m' = alookup k [("process_noise", PVal.num 1),
              ("process_noise_dist", PVal.str "normal"), ("other", PVal.num 7)])) ∧
      mcPredictNoise (fun _ => PVal.num 9) [(3 : ℚ)] false
        [("process_noise", PVal.num 1), ("process_noise_dist", PVal.str "normal"),
         ("other", PVal.num 7)] = .ok [("process_noise", PVal.num 1),
          ("process_noise_dist", PVal.str "normal"), ("other", PVal.num 7)]) :=
  ⟨rfl, by decide,
   c9_constant_noise_restore (fun _ => PVal.num 9) [(3 : ℚ)]
     [("process_noise", PVal.num 1), ("process_noise_dist", PVal.str "normal"),
      ("other", PVal.num 7)] (PVal.num 1) rfl (by decide)⟩

/-! ## Claim C1 -/

theorem ceil_pos_succ {x : ℚ} (hx : 0 < x) : Nat.ceil x = Nat.ceil (x - 1) + 1 := by
  by_cases h1 : 1 ≤ x
  · have h0 : (0 : ℚ) ≤ x - 1 := by linarith
    have h2 := Nat.ceil_add_one h0
    have h3 : x - 1 + 1 = x := by ring
    rw [h3] at h2
    exact h2
  · have hle : Nat.ceil x ≤ 1 := by
      rw [Nat.ceil_le]
      push_cast
      linarith
    have hge : 1 ≤ Nat.ceil x := Nat.one_le_ceil_iff.mpr hx
    have h0 : Nat.ceil (x - 1) = 0 := by
      rw [Nat.ceil_eq_zero]
      linarith
    omega

/-- Closed form of the Kalman/UKF predict loop: from `clock`, with a
fixed positive sub-step `dt`, the loop runs `⌈(t − clock)/dt⌉` times
and the clock ends at `clock + ⌈(t − clock)/dt⌉·dt`. -/
theorem advanceLoop_closed (t dt clock : ℚ) (h : 0 < dt) :
    advanceLoop t dt clock = clock + (Nat.ceil ((t - clock) / dt) : ℚ) * dt := by
  induction clock using advanceLoop.induct t dt with
  | case1 clock hdt => exact absurd h (not_lt.mpr hdt)
  | case2 clock hdt hlt ih =>
      rw [advanceLoop]
      rw [dif_neg hdt, dif_pos hlt, ih]
      have hx : 0 < (t - clock) / dt := div_pos (by linarith) h
      have heq : (t - (clock + dt)) / dt = (t - clock) / dt - 1 := by
        field_simp
        ring
      rw [heq, ceil_pos_succ hx]
      push_cast
      ring
  | case3 clock hdt hge =>
      rw [advanceLoop]
      rw [dif_neg hdt, dif_neg hge]
      have hc : Nat.ceil ((t - clock) / dt) = 0 := by
        rw [Nat.ceil_eq_zero]
        rw [div_nonpos_iff]
        exact Or.inr ⟨by linarith, le_of_lt h⟩
      rw [hc]
      push_cast
      ring

/-- The particle filter's loop lands exactly on `t`: the last sub-step
is `min dt (t − clock)`, which closes the remaining gap. -/
theorem pfAdvanceLoop_exact (t dt clock : ℚ) (h : 0 < dt) (hle : clock ≤ t) :
    pfAdvanceLoop t dt clock = t := by
  induction clock using pfAdvanceLoop.induct t dt with
  | case1 clock hdt => exact absurd h (not_lt.mpr hdt)
  | case2 clock hdt hlt ih =>
      rw [pfAdvanceLoop]
      rw [dif_neg hdt, dif_pos hlt]
      refine ih ?_
      have := min_le_right dt (t - clock)
      linarith
  | case3 clock hdt hge =>
      rw [pfAdvanceLoop]
      rw [dif_neg hdt, dif_neg hge]
      exact le_antisymm hle (not_lt.mp hge)

/-- C1 counterexample: a `KalmanFilter` at clock 0 receiving
`estimate(t = 3/2)` with maximum step `dt = 1` takes two full steps of
size 1 and returns with its clock at 2, not at `t = 3/2` — the clock
overshoots `t` whenever `t − clock` exceeds `dt` and is not an integer
multiple of it, contradicting the claim that the clock equals exactly
`t` for every estimator. -/
theorem c1_counterexample :
    kalman_estimate_clock 0 (3 / 2) 1 = 2 ∧ (2 : ℚ) ≠ 3 / 2 := by
  constructor
  · rw [kalman_estimate_clock]
    have hmin : min ((3 : ℚ) / 2 - 0) 1 = 1 := by
      rw [min_eq_right]
      norm_num
    rw [hmin, advanceLoop_closed _ _ _ (by norm_num)]
    have hc : Nat.ceil (((3 : ℚ) / 2 - 0) / 1) = 2 := by
      rw [Nat.ceil_eq_iff (by norm_num)]
      constructor <;> norm_num
    rw [hc]
    norm_num
  · norm_num

/-- C1 amended: every `estimate(t, u, z)` call with `t` greater than
the current clock subdivides the gap into sub-steps of size
`min(t − clock, dt) ≤ dt`.  The `ParticleFilter` re-computes the
sub-step each iteration (and, in the non-vectorized branch, assigns
`self.t = t` directly), so its clock equals exactly `t` on return.
The `KalmanFilter` and `UnscentedKalmanFilter` step by the fixed
sub-step `s = min(t − clock, dt)` until the clock reaches or passes
`t`, returning with clock `clock + ⌈(t − clock)/s⌉·s ≥ t`; this equals
`t` whenever `t − clock ≤ dt`, but overshoots `t` when `t − clock`
is not an integer multiple of `s`. -/
theorem c1_estimate_clock (clock t dt_max : ℚ) (h1 : clock < t) (h2 : 0 < dt_max) :
    min (t - clock) dt_max ≤ dt_max ∧
    kalman_estimate_clock clock t dt_max
      = clock + (Nat.ceil ((t - clock) / min (t - clock) dt_max) : ℚ)
          * min (t - clock) dt_max ∧
    ukf_estimate_clock clock t dt_max = kalman_estimate_clock clock t dt_max ∧
    t ≤ kalman_estimate_clock clock t dt_max ∧
    (t - clock ≤ dt_max → kalman_estimate_clock clock t dt_max = t) ∧
    particle_vectorized_clock clock t dt_max = t ∧
    particle_nonvectorized_clock clock t = t := by
  have hs : 0 < min (t - clock) dt_max := lt_min (by linarith) h2
  have hclosed : kalman_estimate_clock clock t dt_max
      = clock + (Nat.ceil ((t - clock) / min (t - clock) dt_max) : ℚ)
          * min (t - clock) dt_max :=
    advanceLoop_closed t _ clock hs
  refine ⟨min_le_right _ _, hclosed, rfl, ?_, ?_, ?_, rfl⟩
  · rw [hclosed]
    have hceil : (t - clock) / min (t - clock) dt_max
        ≤ (Nat.ceil ((t - clock) / min (t - clock) dt_max) : ℚ) := Nat.le_ceil _
    have hmul : t - clock ≤ (Nat.ceil ((t - clock) / min (t - clock) dt_max) : ℚ)
        * min (t - clock) dt_max := by
      have := mul_le_mul_of_nonneg_right hceil (le_of_lt hs)
      rwa [div_mul_cancel₀ _ (ne_of_gt hs)] at this
    linarith
  · intro hle
    have hmin : min (t - clock) dt_max = t - clock := min_eq_left hle
    rw [hclosed, hmin]
    have hone : (t - clock) / (t - clock) = 1 := div_self (by linarith)
    rw [hone]
    simp
  · rw [particle_vectorized_clock]
    exact pfAdvanceLoop_exact t _ clock (lt_min (by linarith) h2) (le_of_lt h1)

/-- Witness for the amended C1 at `clock = 0`, `t = 3`, `dt = 2`. -/
theorem c1_estimate_clock_witness :
    (0 : ℚ) < 3 ∧ (0 : ℚ) < 2 ∧
    (min ((3 : ℚ) - 0) 2 ≤ 2 ∧
     kalman_estimate_clock 0 3 2
       = 0 + (Nat.ceil (((3 : ℚ) - 0) / min ((3 : ℚ) - 0) 2) : ℚ) * min ((3 : ℚ) - 0) 2 ∧
     ukf_estimate_clock 0 3 2 = kalman_estimate_clock 0 3 2 ∧
     (3 : ℚ) ≤ kalman_estimate_clock 0 3 2 ∧
     ((3 : ℚ) - 0 ≤ 2 → kalman_estimate_clock 0 3 2 = 3) ∧
     particle_vectorized_clock 0 3 2 = 3 ∧
     particle_nonvectorized_clock 0 3 = 3) :=
  ⟨by norm_num, by norm_num, c1_estimate_clock 0 3 2 (by norm_num) (by norm_num)⟩

/-! ## Claim C5 -/

theorem alookup_map_keyed {α β : Type} (k : String) (l : List (String × α))
    (F : String → α → β) :
    alookup k (l.map (fun kv => (kv.1, F kv.1 kv.2))) = (alookup k l).map (F k) := by
  induction l with
  | nil => rfl
  | cons kv rest ih =>
      by_cases h : kv.1 = k
      · subst h
        simp
      · simp [h, ih]

theorem relative_accuracy_ok (d : UncertainData) (gt : List (String × ℚ))
    (m : List (String × ℚ)) (hmean : d.mean = some m)
    (hnz : ∀ kg ∈ gt, kg.2 ≠ 0)
    (hkeys : ∀ kv ∈ m, (alookup kv.1 gt).isSome) :
    relative_accuracy d gt
      = .ok (m.map (fun kv =>
          (kv.1, 1 - |(alookup kv.1 gt).getD 0 - kv.2| / (alookup kv.1 gt).getD 0))) := by
  have hany : gt.any (fun kg => decide (kg.2 = 0)) = false := by
    rw [List.any_eq_false]
    intro kg hkg
    simpa using hnz kg hkg
  rw [relative_accuracy, if_neg (by simp [hany]), hmean]
  exact mapM_except_eq_map m _ _ (by
    intro kv hkv
    obtain ⟨g, hg⟩ := Option.isSome_iff_exists.mp (hkeys kv hkv)
    rw [hg]
    rfl)

theorem foldl_dAdd_lookupD (ras : List (String × ℚ)) (sums : List (String × ℚ))
    (k : String) (hnd : (ras.map Prod.fst).Nodup) :
    alookupD k (ras.foldl (fun s kv => dAdd s kv.1 kv.2) sums) 0
      = alookupD k sums 0 + alookupD k ras 0 := by
  induction ras generalizing sums with
  | nil => simp [alookupD]
  | cons kv rest ih =>
      simp only [List.map_cons, List.nodup_cons] at hnd
      rw [List.foldl_cons, ih _ hnd.2, alookupD_dAdd]
      by_cases h : kv.1 = k
      · subst h
        have hnotin : alookup kv.1 rest = none := by
          apply alookup_eq_none_of_not_mem
          exact hnd.1
        simp [alookupD, hnotin]
      · simp [alookupD, h]

theorem foldl_dAdd_isSome (ras : List (String × ℚ)) (sums : List (String × ℚ))
    (k : String) :
    (alookup k (ras.foldl (fun s kv => dAdd s kv.1 kv.2) sums)).isSome
      ↔ (alookup k sums).isSome ∨ k ∈ ras.map Prod.fst := by
  induction ras generalizing sums with
  | nil => simp
  | cons kv rest ih =>
      rw [List.foldl_cons, ih, alookup_dAdd_isSome]
      simp only [List.map_cons, List.mem_cons]
      tauto

theorem cra_fold (gt : List (String × ℚ)) (l : List (ℚ × UncertainData))
    (sums : List (String × ℚ))
    (hnz : ∀ kg ∈ gt, kg.2 ≠ 0)
    (hm : ∀ p ∈ l, ∃ m, (p.2).mean = some m ∧ m.map Prod.fst = gt.map Prod.fst)
    (hnd : (gt.map Prod.fst).Nodup) :
    ∃ sums', l.foldlM (craStep gt) sums = .ok sums' ∧
      (∀ k ∈ gt.map Prod.fst,
        alookupD k sums' 0 = alookupD k sums 0 + (l.map (relAccAt gt k)).sum) ∧
      (∀ k, (alookup k sums').isSome ↔
        (alookup k sums).isSome ∨ (l ≠ [] ∧ k ∈ gt.map Prod.fst)) := by
  induction l generalizing sums with
  | nil =>
      refine ⟨sums, rfl, ?_, ?_⟩
      · intro k _
        simp
      · intro k
        simp
  | cons p rest ih =>
      obtain ⟨m, hmean, hkeyeq⟩ := hm p (List.mem_cons_self p rest)
      have hkeys : ∀ kv ∈ m, (alookup kv.1 gt).isSome := by
        intro kv hkv
        rw [alookup_isSome_iff_mem, ← hkeyeq]
        exact List.mem_map_of_mem Prod.fst hkv
      have hra := relative_accuracy_ok p.2 gt m hmean hnz hkeys
      set F : String → ℚ → ℚ :=
        fun key v => 1 - |(alookup key gt).getD 0 - v| / (alookup key gt).getD 0 with hF
      have hstep : craStep gt sums p
          = .ok ((m.map (fun kv => (kv.1, F kv.1 kv.2))).foldl
              (fun s kv => dAdd s kv.1 kv.2) sums) := by
        rw [craStep, hra]
        rfl
      have hrasnd : ((m.map (fun kv => (kv.1, F kv.1 kv.2))).map Prod.fst).Nodup := by
        have : (m.map (fun kv => (kv.1, F kv.1 kv.2))).map Prod.fst = m.map Prod.fst := by
          simp
        rw [this, hkeyeq]
        exact hnd
      obtain ⟨sums', hfold, hval, hsome⟩ :=
        ih ((m.map (fun kv => (kv.1, F kv.1 kv.2))).foldl
              (fun s kv => dAdd s kv.1 kv.2) sums)
          (fun p hp => hm p (List.mem_cons_of_mem _ hp))
      refine ⟨sums', ?_, ?_, ?_⟩
      · rw [List.foldlM_cons, hstep]
        exact hfold
      · intro k hk
        rw [hval k hk, foldl_dAdd_lookupD _ _ _ hrasnd]
        have hkm : k ∈ m.map Prod.fst := by rw [hkeyeq]; exact hk
        obtain ⟨v, hv⟩ := Option.isSome_iff_exists.mp
          ((alookup_isSome_iff_mem k m).mpr hkm)
        have hlook : alookup k (m.map (fun kv => (kv.1, F kv.1 kv.2))) = some (F k v) := by
          rw [alookup_map_keyed, hv]
          rfl
        have hrel : relAccAt gt k p = F k v := by
          rw [relAccAt, hF, hmean]
          simp [alookupD, hv]
        simp only [List.map_cons, List.sum_cons, alookupD, hlook, Option.getD_some, hrel]
        ring
      · intro k
        rw [hsome k, foldl_dAdd_isSome]
        have hmk : (m.map (fun kv => (kv.1, F kv.1 kv.2))).map Prod.fst = gt.map Prod.fst := by
          rw [← hkeyeq]
          simp
        rw [hmk]
        constructor
        · rintro ((h | h) | ⟨hne, hk⟩)
          · exact Or.inl h
          · exact Or.inr ⟨List.cons_ne_nil p rest, h⟩
          · exact Or.inr ⟨List.cons_ne_nil p rest, hk⟩
        · rintro (h | ⟨hne, hk⟩)
          · exact Or.inl (Or.inl h)
          · exact Or.inl (Or.inr hk)

/-- C5: for every non-empty ToE prediction profile and ground-truth
map (with the predictions' mean keys matching the ground-truth keys):
if every ground-truth value is nonzero,
`cumulative_relative_accuracy` returns, per event, the average over
all predictions of the relative accuracy
`1 − |ground_truth − predicted_mean| / ground_truth`; if any
ground-truth value is exactly zero it fails with the
division-by-zero error raised by `relative_accuracy` (surfaced, not
silently recovered). -/
theorem c5_cumulative_relative_accuracy (profile : List (ℚ × UncertainData))
    (gt : List (String × ℚ))
    (hne : profile ≠ [])
    (hnd : (gt.map Prod.fst).Nodup)
    (hm : ∀ p ∈ profile, ∃ m, (p.2).mean = some m ∧ m.map Prod.fst = gt.map Prod.fst) :
    ((∀ kg ∈ gt, kg.2 ≠ 0) →
      ∃ res, cumulative_relative_accuracy profile gt = .ok res ∧
        ∀ k ∈ gt.map Prod.fst,
          alookup k res
            = some ((profile.map (relAccAt gt k)).sum / (profile.length : ℚ))) ∧
    ((∃ kg ∈ gt, kg.2 = 0) →
      cumulative_relative_accuracy profile gt
        = .error "Ground truth values must be non-zero in calculating relative accuracy.") := by
  have hperm : List.Perm (sortProfile profile) profile := List.mergeSort_perm profile _
  have hsort_ne : sortProfile profile ≠ [] := by
    intro h0
    exact hne (List.Perm.eq_nil (h0 ▸ hperm.symm))
  have hdef : cumulative_relative_accuracy profile gt
      = (sortProfile profile).foldlM (craStep gt) ([] : List (String × ℚ)) >>= (fun sums =>
          pure (sums.map (fun kv => (kv.1, kv.2 / (profile.length : ℚ))))) := rfl
  constructor
  · intro hnz
    have hm' : ∀ p ∈ sortProfile profile, ∃ m, (p.2).mean = some m ∧
        m.map Prod.fst = gt.map Prod.fst :=
      fun p hp => hm p (hperm.mem_iff.mp hp)
    obtain ⟨sums', hfold, hval, hsome⟩ := cra_fold gt (sortProfile profile) [] hnz hm' hnd
    refine ⟨sums'.map (fun kv => (kv.1, kv.2 / (profile.length : ℚ))), ?_, ?_⟩
    · rw [hdef, hfold]
      rfl
    · intro k hk
      rw [alookup_map_snd k sums' (fun v => v / (profile.length : ℚ))]
      have hks : (alookup k sums').isSome :=
        (hsome k).mpr (Or.inr ⟨hsort_ne, hk⟩)
      obtain ⟨s, hs⟩ := Option.isSome_iff_exists.mp hks
      have hv := hval k hk
      rw [alookupD, hs, Option.getD_some] at hv
      simp only [alookupD, alookup_nil, Option.getD_none] at hv
      have hsum : ((sortProfile profile).map (relAccAt gt k)).sum
          = (profile.map (relAccAt gt k)).sum :=
        (hperm.map (relAccAt gt k)).sum_eq
      rw [hs, hv, hsum]
      simp
  · rintro ⟨kg, hkg, hkg0⟩
    have hany : gt.any (fun kg => decide (kg.2 = 0)) = true := by
      rw [List.any_eq_true]
      exact ⟨kg, hkg, by simpa using hkg0⟩
    obtain ⟨p, rest, hcons⟩ := List.exists_cons_of_ne_nil hsort_ne
    have hstep : craStep gt [] p
        = .error "Ground truth values must be non-zero in calculating relative accuracy." := by
      rw [craStep, relative_accuracy, if_pos (by simp [hany])]
      rfl
    rw [hdef, hcons, List.foldlM_cons, hstep]
    rfl

/-- Witness for C5 on a two-prediction profile with ground truth
`{e: 2}`: relative accuracies are `1 − |2−4|/2 = 0` and
`1 − |2−2|/2 = 1`, averaging to `1/2`. -/
theorem c5_cumulative_relative_accuracy_witness :
    ([((0 : ℚ), UncertainData.scalar [("e", 4)]),
      ((1 : ℚ), UncertainData.scalar [("e", 2)])] ≠ []) ∧
    (((([(("e" : String), (2 : ℚ))]).map Prod.fst).Nodup) ∧
     ((∀ kg ∈ [(("e" : String), (2 : ℚ))], kg.2 ≠ 0) →
      ∃ res, cumulative_relative_accuracy
          [((0 : ℚ), UncertainData.scalar [("e", 4)]),
           ((1 : ℚ), UncertainData.scalar [("e", 2)])]
          [("e", 2)] = .ok res ∧
        ∀ k ∈ ([(("e" : String), (2 : ℚ))]).map Prod.fst,
          alookup k res
            = some ((([((0 : ℚ), UncertainData.scalar [("e", 4)]),
                ((1 : ℚ), UncertainData.scalar [("e", 2)])]).map
                  (relAccAt [("e", 2)] k)).sum
              / (([((0 : ℚ), UncertainData.scalar [("e", 4)]),
                  ((1 : ℚ), UncertainData.scalar [("e", 2)])]).length : ℚ)))) :=
  ⟨by decide, by decide,
   (c5_cumulative_relative_accuracy
     [((0 : ℚ), UncertainData.scalar [("e", 4)]),
      ((1 : ℚ), UncertainData.scalar [("e", 2)])]
     [("e", 2)] (by decide) (by decide)
     (by
       intro p hp
       rcases List.mem_cons.mp hp with rfl | hp
       · exact ⟨[("e", 4)], rfl, rfl⟩
       rcases List.mem_cons.mp hp with rfl | hp
       · exact ⟨[("e", 2)], rfl, rfl⟩
       · cases hp)).1⟩

/-! ## Claim C3 -/

/-- C3 counterexample: a samples ToE distribution `{-9, 11}` has mean
exactly equal to the ground truth `1`, yet with `alpha = 1/10 > 0` and
`beta = 1 ≤ 1` the fraction of the distribution inside the bounds
`1 ± 0.1·(1 − 0)` is `0 < beta`, so `alpha_lambda` returns `False` —
mean equality alone does not make the metric true. -/
theorem c3_counterexample :
    (UncertainData.samples [[("e", -9)], [("e", 11)]]).mean = some [("e", 1)] ∧
    alpha_lambda [((0 : ℚ), UncertainData.samples [[("e", -9)], [("e", 11)]])]
      [("e", 1)] 0 (1 / 10) 1 = some [("e", false)] := by
  constructor
  · simp [UncertainData.mean, UncertainData.keys, alookup, List.mapM, List.mapM.loop]
    norm_num
  · simp [alpha_lambda, sortProfile, UncertainData.percentageInBounds,
      samplesPercentageInBounds, UncertainData.keys, alookup,
      List.mapM, List.mapM.loop]
    norm_num

theorem alookup_map_const {α β : Type} (k : String) (l : List (String × α)) (c : β) {v : β}
    (h : alookup k (l.map (fun kv => (kv.1, c))) = some v) : v = c := by
  induction l with
  | nil => cases h
  | cons kv rest ih =>
      by_cases hk : kv.1 = k
      · simp [hk] at h
        exact h.symm
      · simp [hk] at h
        exact ih h

/-- C3 amended: if the first prediction made at or after `lambda` is a
point-mass (`ScalarData`) ToE distribution exactly equal to the ground
truth, the prediction was made strictly before each ground-truth time,
`alpha > 0` and `beta ≤ 1`, then `alpha_lambda` returns `True` for
every event.  (For general distributions mean equality is not enough,
and a prediction made at or after the ground-truth time fails the
strict in-bounds test even for a point mass.) -/
theorem c3_alpha_lambda (profile : List (ℚ × UncertainData))
    (gt : List (String × ℚ)) (lambda_value alpha beta t_prediction : ℚ)
    (hfind : (sortProfile profile).find? (fun p => decide (lambda_value ≤ p.1))
        = some (t_prediction, UncertainData.scalar gt))
    (hnd : (gt.map Prod.fst).Nodup)
    (halpha : 0 < alpha)
    (hbeta : beta ≤ 1)
    (ht : ∀ kg ∈ gt, t_prediction < kg.2) :
    alpha_lambda profile gt lambda_value alpha beta
      = some (gt.map (fun kg => (kg.1, true))) := by
  rw [alpha_lambda, hfind]
  set bounds := gt.map (fun kg =>
    (kg.1, (kg.2 - alpha * (kg.2 - t_prediction),
            kg.2 + alpha * (kg.2 - t_prediction)))) with hbounds
  have hndb : (bounds.map Prod.fst).Nodup := by
    rw [hbounds]
    simpa using hnd
  have hpib : scalarPercentageInBounds gt bounds
      = some (gt.map (fun kg => (kg.1, (1 : ℚ)))) := by
    apply mapM_option_eq_map
    intro kv hkv
    have hmem2 : (kv.1, (kv.2 - alpha * (kv.2 - t_prediction),
        kv.2 + alpha * (kv.2 - t_prediction))) ∈ bounds := by
      rw [hbounds]
      exact List.mem_map_of_mem _ hkv
    have hlook := alookup_eq_of_mem_nodup hmem2 hndb
    rw [hlook]
    have hcond : kv.2 - alpha * (kv.2 - t_prediction) < kv.2 ∧
        kv.2 + alpha * (kv.2 - t_prediction) > kv.2 := by
      have h2 := ht kv hkv
      constructor <;> nlinarith
    simp [hcond]
  have hstep1 : UncertainData.percentageInBounds (UncertainData.scalar gt) bounds
      = some (gt.map (fun kg => (kg.1, (1 : ℚ)))) := by
    rw [UncertainData.percentageInBounds, hpib]
  simp only [hstep1, Option.bind_eq_bind, Option.some_bind]
  have hfinal : (UncertainData.scalar gt).keys.mapM (fun key =>
      (alookup key (gt.map (fun kg => (kg.1, (1 : ℚ))))).map
        (fun p => (key, decide (beta ≤ p))))
      = some (((UncertainData.scalar gt).keys).map (fun key => (key, true))) := by
    apply mapM_option_eq_map
    intro key hkey
    have hksome : (alookup key (gt.map (fun kg => (kg.1, (1 : ℚ))))).isSome := by
      have hkey' : key ∈ gt.map Prod.fst := hkey
      rw [alookup_isSome_iff_mem]
      simpa using hkey'
    obtain ⟨v, hv⟩ := Option.isSome_iff_exists.mp hksome
    have hv1 : v = 1 := alookup_map_const key gt (1 : ℚ) hv
    rw [hv, hv1]
    simp [decide_eq_true hbeta]
  rw [hfinal]
  simp [UncertainData.keys]

/-- Witness for the amended C3: a point-mass prediction at the ground
truth, made before the ground-truth time. -/
theorem c3_alpha_lambda_witness :
    ((sortProfile [((0 : ℚ), UncertainData.scalar [("e", 2)])]).find?
        (fun p => decide ((0 : ℚ) ≤ p.1))
      = some (0, UncertainData.scalar [("e", 2)])) ∧
    (0 : ℚ) < 1 ∧ (1 : ℚ) ≤ 1 ∧
    alpha_lambda [((0 : ℚ), UncertainData.scalar [("e", 2)])] [("e", 2)] 0 1 1
      = some (([(("e" : String), (2 : ℚ))]).map (fun kg => (kg.1, true))) :=
  ⟨by simp [sortProfile], by norm_num, by norm_num,
   c3_alpha_lambda [((0 : ℚ), UncertainData.scalar [("e", 2)])] [("e", 2)] 0 1 1 0
     (by simp [sortProfile]) (by decide) (by norm_num) (by norm_num)
     (by
       intro kg hkg
       rcases List.mem_cons.mp hkg with rfl | hkg
       · norm_num
       · cases hkg)⟩

/-! ## Claim C4 -/

theorem sortProfile_of_sorted (profile : List (ℚ × UncertainData))
    (h : profile.Pairwise (fun a b => a.1 ≤ b.1)) : sortProfile profile = profile := by
  apply List.mergeSort_of_sorted
  simpa using h

theorem sign_abs_le_one (x : ℚ) : |sign x| ≤ 1 := by
  rw [sign]
  by_cases h1 : 0 < x
  · simp [h1]
  · by_cases h2 : x < 0 <;> simp [h1, h2]

theorem sign_add_sign_neg (x : ℚ) : sign x + sign (-x) = 0 := by
  rcases lt_trichotomy 0 x with h | h | h
  · rw [sign, sign, if_pos h, if_neg (show ¬ (0 : ℚ) < -x by linarith),
      if_pos (show -x < 0 by linarith)]
    norm_num
  · rw [← h]
    simp [sign]
  · rw [sign, sign, if_neg (show ¬ (0 : ℚ) < x by linarith), if_pos h,
      if_pos (show (0 : ℚ) < -x by linarith)]
    norm_num

theorem foldl_dAppend_single (k : String) (xs : List ℚ) (l0 : List ℚ) :
    xs.foldl (fun acc x => dAppend acc k x) [(k, l0)] = [(k, l0 ++ xs)] := by
  induction xs generalizing l0 with
  | nil => simp
  | cons x rest ih =>
      rw [List.foldl_cons]
      have hstep : dAppend [(k, l0)] k x = [(k, l0 ++ [x])] := by
        simp [dAppend]
      rw [hstep, ih]
      simp

theorem monoStep_scalar (k : String) (l0 : List ℚ) (p : ℚ × ℚ) :
    monoStep [(k, l0)] (p.1, UncertainData.scalar [(k, p.2)])
      = Except.ok [(k, l0 ++ [p.2 - p.1])] := by
  show Except.ok (([(k, p.2)] : List (String × ℚ)).foldl
    (fun acc2 kv => dAppend acc2 kv.1 (kv.2 - p.1)) [(k, l0)]) = _
  simp [dAppend]

/-- The `by_event` accumulation of `monotonicity` on a profile of
single-event point predictions, in profile order: one entry holding
the sequence of `mean − prediction_time` values. -/
theorem monoStep_foldlM_scalar (k : String) (pts : List (ℚ × ℚ)) (hne : pts ≠ []) :
    (pts.map (fun p => (p.1, UncertainData.scalar [(k, p.2)]))).foldlM monoStep
        ([] : List (String × List ℚ))
      = .ok [(k, pts.map (fun p => p.2 - p.1))] := by
  have hgen : ∀ (xs : List (ℚ × ℚ)) (l0 : List ℚ),
      (xs.map (fun p => (p.1, UncertainData.scalar [(k, p.2)]))).foldlM monoStep [(k, l0)]
      = .ok [(k, l0 ++ xs.map (fun p => p.2 - p.1))] := by
    intro xs
    induction xs with
    | nil =>
        intro l0
        simp only [List.map_nil, List.foldlM_nil, List.append_nil]
        rfl
    | cons p rest ih =>
        intro l0
        rw [List.map_cons, List.foldlM_cons, monoStep_scalar]
        show (rest.map (fun p => (p.1, UncertainData.scalar [(k, p.2)]))).foldlM monoStep
          [(k, l0 ++ [p.2 - p.1])] = _
        rw [ih (l0 ++ [p.2 - p.1])]
        simp
  obtain ⟨p, rest, rfl⟩ := List.exists_cons_of_ne_nil hne
  rw [List.map_cons, List.foldlM_cons]
  have hfirst : monoStep ([] : List (String × List ℚ)) (p.1, UncertainData.scalar [(k, p.2)])
      = Except.ok [(k, [p.2 - p.1])] := by
    show Except.ok (([(k, p.2)] : List (String × ℚ)).foldl
      (fun acc2 kv => dAppend acc2 kv.1 (kv.2 - p.1)) []) = _
    simp [dAppend]
  rw [hfirst]
  show (rest.map (fun p => (p.1, UncertainData.scalar [(k, p.2)]))).foldlM monoStep
    [(k, [p.2 - p.1])] = _
  rw [hgen rest [p.2 - p.1]]
  simp

theorem signs_of_chain_lt (l : List ℚ) (h : List.Chain' (· < ·) l) :
    (l.zip l.tail).map (fun ab => sign (ab.2 - ab.1))
      = List.replicate (l.length - 1) 1 := by
  induction l with
  | nil => rfl
  | cons x rest ih =>
      cases rest with
      | nil => rfl
      | cons y rest' =>
          rw [List.chain'_cons] at h
          have h1 : sign (y - x) = 1 := by
            rw [sign, if_pos (by linarith [h.1])]
          have ih' := ih h.2
          simp only [List.tail_cons] at ih'
          simp only [List.tail_cons, List.zip_cons_cons, List.map_cons, h1]
          rw [ih']
          simp [List.replicate_succ]

theorem altList_head (a b : ℚ) (m : ℕ) : ∃ rest, altList a b m = a :: rest := by
  cases m with
  | zero => exact ⟨[], rfl⟩
  | succ m' => exact ⟨b :: altList a b m', rfl⟩

theorem altList_length (a b : ℚ) (m : ℕ) : (altList a b m).length = 2 * m + 1 := by
  induction m with
  | zero => rfl
  | succ m' ih =>
      rw [altList]
      simp only [List.length_cons, ih]
      omega

theorem signs_of_altList_sum (a b : ℚ) (m : ℕ) :
    (((altList a b m).zip (altList a b m).tail).map
        (fun ab => sign (ab.2 - ab.1))).sum = 0 := by
  induction m with
  | zero => rfl
  | succ m' ih =>
      obtain ⟨rest, hrest⟩ := altList_head a b m'
      rw [altList, hrest]
      rw [hrest] at ih
      simp only [List.tail_cons] at ih
      simp only [List.tail_cons, List.zip_cons_cons, List.map_cons, List.sum_cons]
      rw [ih]
      have : sign (a - b) = sign (-(b - a)) := by ring_nf
      rw [this]
      have := sign_add_sign_neg (b - a)
      linarith

/-- C4 counterexample: a profile of 10 predictions at times `0..9`
whose predicted means `0..9` are strictly increasing yields
monotonicity `0.0`, not `1.0`: the metric subtracts the prediction
time from each mean (`value - time`, `toe_profile_metrics.py` line
133), and here `mean − time` is constant. -/
theorem c4_counterexample :
    monotonicity (scalarProfile "a"
        [(0, 0), (1, 1), (2, 2), (3, 3), (4, 4), (5, 5), (6, 6), (7, 7), (8, 8), (9, 9)])
      = .ok [("a", 0)] ∧ ((0 : ℚ) ≠ 1) := by
  constructor
  · set L : List (ℚ × ℚ) :=
      [(0, 0), (1, 1), (2, 2), (3, 3), (4, 4), (5, 5), (6, 6), (7, 7), (8, 8), (9, 9)]
      with hL
    have hs : sortProfile (scalarProfile "a" L) = scalarProfile "a" L := by
      apply sortProfile_of_sorted
      rw [scalarProfile, List.pairwise_map, hL]
      decide
    have hdef : monotonicity (scalarProfile "a" L)
        = (sortProfile (scalarProfile "a" L)).foldlM monoStep ([] : List (String × List ℚ))
            >>= (fun by_event => by_event.mapM monoFinish) := rfl
    rw [hdef, hs, scalarProfile, monoStep_foldlM_scalar "a" L (by rw [hL]; decide)]
    show ([("a", L.map (fun p => p.2 - p.1))].mapM monoFinish) = Except.ok [("a", 0)]
    have hfin : monoFinish ("a", L.map (fun p => p.2 - p.1)) = Except.ok ("a", 0) := by
      rw [hL]
      simp only [monoFinish]
      norm_num [sign]
    rw [List.mapM_cons, hfin, List.mapM_nil]
    rfl
  · norm_num

/-- C4 amended: `monotonicity` collects, per event, the sequence of
`mean − prediction_time` values in increasing prediction-time order
and returns `|Σ sign(Δ)| / (N−1)`.  Whenever it returns normally the
value is in `[0, 1]` (a single-prediction profile instead fails with a
division-by-zero error).  For a single-event point-prediction profile
the result is `1.0` when `mean − prediction_time` is strictly
increasing (not when the means themselves are), and `0.0` when
`mean − prediction_time` alternates between two fixed values over an
even number of steps. -/
theorem c4_monotonicity :
    (∀ (profile : List (ℚ × UncertainData)) (res : List (String × ℚ)),
      monotonicity profile = .ok res → ∀ kv ∈ res, 0 ≤ kv.2 ∧ kv.2 ≤ 1) ∧
    (∀ (k : String) (pts : List (ℚ × ℚ)),
      pts.Pairwise (fun a b => a.1 ≤ b.1) → 2 ≤ pts.length →
      List.Chain' (· < ·) (pts.map (fun p => p.2 - p.1)) →
      monotonicity (scalarProfile k pts) = .ok [(k, 1)]) ∧
    (∀ (k : String) (pts : List (ℚ × ℚ)) (a b : ℚ) (m : ℕ),
      pts.Pairwise (fun a b => a.1 ≤ b.1) → 1 ≤ m →
      pts.map (fun p => p.2 - p.1) = altList a b m →
      monotonicity (scalarProfile k pts) = .ok [(k, 0)]) := by
  refine ⟨?_, ?_, ?_⟩
  · intro profile res hok kv hkv
    have hdef : monotonicity profile
        = (sortProfile profile).foldlM monoStep ([] : List (String × List ℚ)) >>=
            (fun by_event => by_event.mapM monoFinish) := rfl
    rw [hdef] at hok
    rcases hfold : (sortProfile profile).foldlM monoStep ([] : List (String × List ℚ))
      with e | bv
    · rw [hfold] at hok
      cases hok
    · rw [hfold] at hok
      have hmap : bv.mapM monoFinish = .ok res := hok
      obtain ⟨kl, hklm, hfin⟩ := mapM_except_mem_bwd hmap kv hkv
      simp only [monoFinish] at hfin
      by_cases hlen : kl.2.length = 1
      · rw [if_pos hlen] at hfin
        cases hfin
      · rw [if_neg hlen] at hfin
        obtain rfl := (Except.ok.inj hfin).symm
        refine ⟨abs_nonneg _, ?_⟩
        rcases hl : kl.2 with _ | ⟨x, rest⟩
        · simp
        · rw [← hl]
          have hn2 : 2 ≤ kl.2.length := by
            rw [hl]
            rcases rest with _ | _
            · exact absurd (by rw [hl]; rfl) hlen
            · simp only [List.length_cons]
              omega
          have habs : |(((kl.2.zip kl.2.tail).map (fun ab => sign (ab.2 - ab.1))).sum)|
              ≤ (((kl.2.zip kl.2.tail).map (fun ab => sign (ab.2 - ab.1))).length : ℚ) := by
            apply abs_sum_le_length
            intro y hy
            obtain ⟨ab, _, rfl⟩ := List.mem_map.mp hy
            exact sign_abs_le_one _
          have hziplen : ((kl.2.zip kl.2.tail).map (fun ab => sign (ab.2 - ab.1))).length
              = kl.2.length - 1 := by
            rw [List.length_map, List.length_zip, List.length_tail]
            omega
          rw [hziplen] at habs
          have hcast : ((kl.2.length - 1 : ℕ) : ℚ) = (kl.2.length : ℚ) - 1 := by
            have : 1 ≤ kl.2.length := by omega
            push_cast [Nat.cast_sub this]
            ring
          rw [hcast] at habs
          have hpos : (0 : ℚ) < (kl.2.length : ℚ) - 1 := by
            have : (2 : ℚ) ≤ (kl.2.length : ℚ) := by exact_mod_cast hn2
            linarith
          rw [abs_div, abs_of_pos hpos, div_le_one hpos]
          exact habs
  · intro k pts hs hlen2 hchain
    have hne : pts ≠ [] := by
      intro h
      rw [h] at hlen2
      simp at hlen2
    have hdef : monotonicity (scalarProfile k pts)
        = (sortProfile (scalarProfile k pts)).foldlM monoStep
            ([] : List (String × List ℚ)) >>= (fun by_event =>
              by_event.mapM monoFinish) := rfl
    have hsorted : sortProfile (scalarProfile k pts) = scalarProfile k pts := by
      apply sortProfile_of_sorted
      rw [scalarProfile, List.pairwise_map]
      exact hs
    rw [hdef, hsorted, scalarProfile, monoStep_foldlM_scalar k pts hne]
    show ([(k, pts.map (fun p => p.2 - p.1))].mapM monoFinish)
      = Except.ok [(k, 1)]
    have hlistlen : (pts.map (fun p => p.2 - p.1)).length = pts.length :=
      List.length_map _ _
    have hfin : monoFinish (k, pts.map (fun p => p.2 - p.1)) = Except.ok (k, 1) := by
      simp only [monoFinish]
      rw [if_neg (by rw [hlistlen]; omega)]
      rw [signs_of_chain_lt _ hchain]
      rw [List.sum_replicate, nsmul_eq_mul, mul_one]
      rw [hlistlen]
      have hcast : ((pts.length - 1 : ℕ) : ℚ) = (pts.length : ℚ) - 1 := by
        have h1 : 1 ≤ pts.length := by omega
        push_cast [Nat.cast_sub h1]
        ring
      rw [hcast]
      have hpos : (0 : ℚ) < (pts.length : ℚ) - 1 := by
        have : (2 : ℚ) ≤ (pts.length : ℚ) := by exact_mod_cast hlen2
        linarith
      rw [div_self (ne_of_gt hpos), abs_one]
    rw [List.mapM_cons, hfin, List.mapM_nil]
    rfl
  · intro k pts a b m hs hm hmap
    have hlen : pts.length = 2 * m + 1 := by
      have := altList_length a b m
      rw [← hmap, List.length_map] at this
      exact this
    have hne : pts ≠ [] := by
      intro h
      rw [h] at hlen
      simp at hlen
    have hdef : monotonicity (scalarProfile k pts)
        = (sortProfile (scalarProfile k pts)).foldlM monoStep
            ([] : List (String × List ℚ)) >>= (fun by_event =>
              by_event.mapM monoFinish) := rfl
    have hsorted : sortProfile (scalarProfile k pts) = scalarProfile k pts := by
      apply sortProfile_of_sorted
      rw [scalarProfile, List.pairwise_map]
      exact hs
    rw [hdef, hsorted, scalarProfile, monoStep_foldlM_scalar k pts hne]
    show ([(k, pts.map (fun p => p.2 - p.1))].mapM monoFinish)
      = Except.ok [(k, 0)]
    have hfin : monoFinish (k, pts.map (fun p => p.2 - p.1)) = Except.ok (k, 0) := by
      simp only [monoFinish]
      rw [if_neg (by rw [List.length_map, hlen]; omega)]
      rw [hmap, signs_of_altList_sum]
      simp
    rw [List.mapM_cons, hfin, List.mapM_nil]
    rfl

/-- Witness for the amended C4: two predictions whose time-to-event
sequence `10, 11` is strictly increasing give monotonicity `1.0`. -/
theorem c4_monotonicity_witness :
    ([((0 : ℚ), (10 : ℚ)), (1, 12)].Pairwise (fun a b => a.1 ≤ b.1)) ∧
    2 ≤ ([((0 : ℚ), (10 : ℚ)), (1, 12)]).length ∧
    List.Chain' (· < ·) (([((0 : ℚ), (10 : ℚ)), (1, 12)]).map (fun p => p.2 - p.1)) ∧
    monotonicity (scalarProfile "a" [((0 : ℚ), (10 : ℚ)), (1, 12)]) = .ok [("a", 1)] :=
  ⟨by norm_num, by norm_num,
   by norm_num [List.chain'_cons],
   c4_monotonicity.2.1 "a" [((0 : ℚ), (10 : ℚ)), (1, 12)] (by norm_num) (by norm_num)
     (by norm_num [List.chain'_cons])⟩

/-! ## Claim C2 -/

/-- The per-realization event loop only ever appends to the recording
dicts: its result extends the accumulators passed in. -/
theorem mcEventLoop_extends {σ : Type} (sim : ℚ → σ → List String → ℚ → ℚ × σ)
    (tm : σ → String → Bool) (strategy : EventStrategy) (horizon t0_init : ℚ) :
    ∀ (n : ℕ) (events : List String), events.length ≤ n →
    ∀ (t0 : ℚ) (x : σ) (toe : List (String × Option ℚ)) (ls : List (String × Option σ)),
    ∃ ext extls,
      mcEventLoop sim tm strategy horizon t0_init events t0 x toe ls
        = (toe ++ ext, ls ++ extls) := by
  intro n
  induction n with
  | zero =>
      intro events hlen t0 x toe ls
      have h0 : events = [] := List.length_eq_zero.mp (Nat.le_zero.mp hlen)
      subst h0
      exact ⟨[], [], by simp [mcEventLoop]⟩
  | succ n ih =>
      intro events hlen t0 x toe ls
      rcases events with _ | ⟨e, rest⟩
      · exact ⟨[], [], by simp [mcEventLoop]⟩
      · rw [mcEventLoop]
        split
        · exact ⟨_, _, rfl⟩
        · rename_i ev hfind
          have hmem : ev ∈ e :: rest := List.mem_of_find?_eq_some hfind
          cases strategy with
          | all =>
              have hlen2 : ((e :: rest).erase ev).length ≤ n := by
                rw [List.length_erase_of_mem hmem]
                simp only [List.length_cons] at hlen ⊢
                omega
              obtain ⟨ext, extls, hrec⟩ := ih ((e :: rest).erase ev) hlen2
                (sim t0 x (e :: rest) (horizon - (t0 - t0_init))).1
                (sim t0 x (e :: rest) (horizon - (t0 - t0_init))).2
                (toe ++ [(ev, some (sim t0 x (e :: rest) (horizon - (t0 - t0_init))).1)])
                (ls ++ [(ev, some (sim t0 x (e :: rest) (horizon - (t0 - t0_init))).2)])
              dsimp only
              rw [hrec]
              exact ⟨_, _, by rw [List.append_assoc, List.append_assoc]⟩
          | first =>
              obtain ⟨ext, extls, hrec⟩ := ih [] (by simp)
                (sim t0 x (e :: rest) (horizon - (t0 - t0_init))).1
                (sim t0 x (e :: rest) (horizon - (t0 - t0_init))).2
                (toe ++ [(ev, some (sim t0 x (e :: rest) (horizon - (t0 - t0_init))).1)])
                (ls ++ [(ev, some (sim t0 x (e :: rest) (horizon - (t0 - t0_init))).2)])
              dsimp only
              rw [hrec]
              exact ⟨_, _, by rw [List.append_assoc, List.append_assoc]⟩

/-- With `event_strategy='all'` and simulations that always end with
some remaining event met, every requested event is resolved (recorded
with an arrival time) for the realization. -/
theorem mcEventLoop_all_resolves {σ : Type} (sim : ℚ → σ → List String → ℚ → ℚ × σ)
    (tm : σ → String → Bool) (horizon t0_init : ℚ)
    (hprog : ∀ (t0' : ℚ) (x' : σ) (rem : List String), rem ≠ [] →
      (rem.find? (fun ev => tm (sim t0' x' rem (horizon - (t0' - t0_init))).2 ev)).isSome) :
    ∀ (n : ℕ) (events : List String), events.length ≤ n → events.Nodup →
    ∀ (t0 : ℚ) (x : σ) (toe : List (String × Option ℚ)) (ls : List (String × Option σ)),
    (∀ ev ∈ events, alookup ev toe = none) →
    ∀ ev ∈ events, ∃ tv,
      alookup ev (mcEventLoop sim tm .all horizon t0_init events t0 x toe ls).1
        = some (some tv) := by
  intro n
  induction n with
  | zero =>
      intro events hlen _ _ _ _ _ _ ev hev
      have h0 : events = [] := List.length_eq_zero.mp (Nat.le_zero.mp hlen)
      subst h0
      cases hev
  | succ n ih =>
      intro events hlen hnd t0 x toe ls htoe ev hev
      rcases events with _ | ⟨e, rest⟩
      · cases hev
      · have hne : (e :: rest) ≠ [] := List.cons_ne_nil e rest
        rw [mcEventLoop]
        split
        · rename_i hnone
          have hsome := hprog t0 x (e :: rest) hne
          rw [hnone] at hsome
          simp at hsome
        · rename_i evf hfind2
          have hmemf : evf ∈ e :: rest := List.mem_of_find?_eq_some hfind2
          dsimp only
          by_cases hcase : ev = evf
          · subst hcase
            have hlen2 : ((e :: rest).erase ev).length ≤ n := by
              rw [List.length_erase_of_mem hmemf]
              simp only [List.length_cons] at hlen ⊢
              omega
            obtain ⟨ext, extls, hrec⟩ :=
              mcEventLoop_extends sim tm .all horizon t0_init n ((e :: rest).erase ev)
                hlen2 (sim t0 x (e :: rest) (horizon - (t0 - t0_init))).1
                (sim t0 x (e :: rest) (horizon - (t0 - t0_init))).2
                (toe ++ [(ev, some (sim t0 x (e :: rest) (horizon - (t0 - t0_init))).1)])
                (ls ++ [(ev, some (sim t0 x (e :: rest) (horizon - (t0 - t0_init))).2)])
            rw [hrec]
            refine ⟨(sim t0 x (e :: rest) (horizon - (t0 - t0_init))).1, ?_⟩
            rw [List.append_assoc, alookup_append_of_none _ _ _ (htoe ev hev)]
            rw [alookup_append_of_isSome]
            · simp
            · simp
          · have hev_rest : ev ∈ (e :: rest).erase evf :=
              (List.mem_erase_of_ne hcase).mpr hev
            have hlen2 : ((e :: rest).erase evf).length ≤ n := by
              rw [List.length_erase_of_mem hmemf]
              simp only [List.length_cons] at hlen ⊢
              omega
            refine ih ((e :: rest).erase evf) hlen2 (hnd.erase evf)
              (sim t0 x (e :: rest) (horizon - (t0 - t0_init))).1
              (sim t0 x (e :: rest) (horizon - (t0 - t0_init))).2
              (toe ++ [(evf, some (sim t0 x (e :: rest) (horizon - (t0 - t0_init))).1)])
              (ls ++ [(evf, some (sim t0 x (e :: rest) (horizon - (t0 - t0_init))).2)])
              ?_ ev hev_rest
            intro ev2 hev2
            have hev2m : ev2 ∈ e :: rest := (List.erase_subset _ _) hev2
            have hne2 : ¬ evf = ev2 := by
              intro he
              subst he
              exact (List.Nodup.not_mem_erase hnd) hev2
            rw [alookup_append_of_none _ _ _ (htoe ev2 hev2m)]
            simp [hne2]

/-- C2 counterexample: with `event_strategy='first'` on two events that
both occur, the realization records only the first-resolved event; the
other requested event is absent from the recorded time-of-event map
(lookup finds no entry), not recorded as a null arrival time, contrary
to the claim. -/
theorem c2_counterexample :
    mcRealization (fun t0 x _ _ => (t0 + 1, x + 1)) (fun _ _ => true)
        EventStrategy.first 100 0 ["e1", "e2"] (0 : ℚ)
      = ([("e1", some 1)], [("e1", some 1)]) ∧
    alookup "e2" [(("e1" : String), some (1 : ℚ))] = none ∧
    (alookup "e2" [(("e1" : String), some (1 : ℚ))]
      ≠ some (none : Option ℚ)) := by
  refine ⟨?_, by decide, by decide⟩
  rw [mcRealization, mcEventLoop]
  split
  · rename_i hnone
    simp [List.find?] at hnone
  · rename_i ev hfind
    simp only [List.find?] at hfind
    obtain rfl := Option.some.inj hfind
    dsimp only
    rw [mcEventLoop]
    norm_num

/-- C2 amended: for every `MonteCarlo.predict` realization with
`event_strategy='first'` on events that occur during simulation, as
soon as the first event resolves, no further events are recorded: the
realization's time-of-event and final-state maps contain exactly the
one resolved event, and every other requested event is left absent
from those maps (a lookup finds no entry — it is not recorded as a
null value; only events unmet at the horizon are recorded as null);
with `event_strategy='all'`, every requested event is resolved
independently for the realization. -/
theorem c2_event_strategy :
    (∀ (σ : Type) (sim : ℚ → σ → List String → ℚ → ℚ × σ) (tm : σ → String → Bool)
       (horizon t0 : ℚ) (x : σ) (e : String) (rest : List String) (ev : String),
       (e :: rest).find?
           (fun e2 => tm (sim t0 x (e :: rest) (horizon - (t0 - t0))).2 e2) = some ev →
       mcRealization sim tm .first horizon t0 (e :: rest) x
         = ([(ev, some (sim t0 x (e :: rest) (horizon - (t0 - t0))).1)],
            [(ev, some (sim t0 x (e :: rest) (horizon - (t0 - t0))).2)])
       ∧ ∀ e2, e2 ≠ ev →
           alookup e2 (mcRealization sim tm .first horizon t0 (e :: rest) x).1 = none
           ∧ alookup e2 (mcRealization sim tm .first horizon t0 (e :: rest) x).2 = none) ∧
    (∀ (σ : Type) (sim : ℚ → σ → List String → ℚ → ℚ × σ) (tm : σ → String → Bool)
       (horizon t0 : ℚ) (events : List String) (x : σ),
       (∀ (t0' : ℚ) (x' : σ) (rem : List String), rem ≠ [] →
         (rem.find? (fun ev => tm (sim t0' x' rem (horizon - (t0' - t0))).2 ev)).isSome) →
       events.Nodup →
       ∀ ev ∈ events, ∃ tv,
         alookup ev (mcRealization sim tm .all horizon t0 events x).1
           = some (some tv)) := by
  constructor
  · intro σ sim tm horizon t0 x e rest ev hfind
    have hmain : mcRealization sim tm .first horizon t0 (e :: rest) x
        = ([(ev, some (sim t0 x (e :: rest) (horizon - (t0 - t0))).1)],
           [(ev, some (sim t0 x (e :: rest) (horizon - (t0 - t0))).2)]) := by
      rw [mcRealization, mcEventLoop]
      split
      · rename_i hnone
        rw [hnone] at hfind
        cases hfind
      · rename_i ev2 hfind2
        rw [hfind2] at hfind
        obtain rfl := Option.some.inj hfind
        dsimp only
        rw [mcEventLoop]
        rfl
    refine ⟨hmain, ?_⟩
    intro e2 he2
    have hne' : ¬ ev = e2 := fun h => he2 h.symm
    rw [hmain]
    simp [hne']
  · intro σ sim tm horizon t0 events x hprog hnd ev hev
    exact mcEventLoop_all_resolves sim tm horizon t0 hprog events.length events
      (le_refl _) hnd t0 x [] [] (fun _ _ => rfl) ev hev

/-- Witness for the amended C2 at a concrete two-event model where
both events' thresholds are always met. -/
theorem c2_event_strategy_witness :
    ((["e1", "e2"] : List String).find?
        (fun e2 => (fun (_ : ℚ) (_ : String) => true)
          ((fun (t0 : ℚ) (x : ℚ) (_ : List String) (_ : ℚ) => (t0 + 1, x + 1))
            0 0 ["e1", "e2"] (100 - (0 - 0))).2 e2) = some "e1") ∧
    (mcRealization (fun (t0 : ℚ) (x : ℚ) (_ : List String) (_ : ℚ) => (t0 + 1, x + 1))
        (fun (_ : ℚ) (_ : String) => true) .first 100 0 ["e1", "e2"] (0 : ℚ)
      = ([("e1", some ((fun (t0 : ℚ) (x : ℚ) (_ : List String) (_ : ℚ) => (t0 + 1, x + 1))
            0 0 ["e1", "e2"] (100 - (0 - 0))).1)],
         [("e1", some ((fun (t0 : ℚ) (x : ℚ) (_ : List String) (_ : ℚ) => (t0 + 1, x + 1))
            0 0 ["e1", "e2"] (100 - (0 - 0))).2)])
      ∧ ∀ e2, e2 ≠ "e1" →
          alookup e2 (mcRealization
            (fun (t0 : ℚ) (x : ℚ) (_ : List String) (_ : ℚ) => (t0 + 1, x + 1))
            (fun (_ : ℚ) (_ : String) => true) .first 100 0 ["e1", "e2"] (0 : ℚ)).1 = none
          ∧ alookup e2 (mcRealization
            (fun (t0 : ℚ) (x : ℚ) (_ : List String) (_ : ℚ) => (t0 + 1, x + 1))
            (fun (_ : ℚ) (_ : String) => true) .first 100 0 ["e1", "e2"] (0 : ℚ)).2 = none) ∧
    (∀ ev ∈ (["e1", "e2"] : List String), ∃ tv,
      alookup ev (mcRealization
          (fun (t0 : ℚ) (x : ℚ) (_ : List String) (_ : ℚ) => (t0 + 1, x + 1))
          (fun (_ : ℚ) (_ : String) => true) .all 100 0 ["e1", "e2"] (0 : ℚ)).1
        = some (some tv)) :=
  ⟨rfl,
   c2_event_strategy.1 ℚ (fun t0 x _ _ => (t0 + 1, x + 1)) (fun _ _ => true)
     100 0 0 "e1" ["e2"] "e1" rfl,
   c2_event_strategy.2 ℚ (fun t0 x _ _ => (t0 + 1, x + 1)) (fun _ _ => true)
     100 0 ["e1", "e2"] 0
     (by
       intro t0' x' rem hrem
       rcases rem with _ | ⟨r, rs⟩
       · exact absurd rfl hrem
       · simp [List.find?])
     (by decide)⟩

end Progpy
